import Mathlib

/-!
# Scheduling core of the coroutine runtime

A shallow embedding of `src/coroutines/scheduler.cpp`, `src/coroutines/monitor.cpp` and
`src/coroutines/condition_variable.hpp`.

Conventions of the embedding.

* A pointer (`coroutine*`, `coroutine_weak_ptr`, `processor*`, `processor_weak_ptr`) is the
  address of the object, a `Nat`.
* The counters `_active_processors` and `_blocked_processors` are `unsigned`; both are bounded
  by the number of processor objects alive, so no sum of them wraps around and they are `Nat`.
* Every member function runs under the scheduler's mutex, so it is a function from the state
  before the call to the state after it.  A failed `assert`, an index past the end of
  `_processors` and a `processor*` that refers to no processor are results of type `Fault`.
* The code of `processor`, `processor_container`, `thread_safe_queue`, `context` and
  `find_ptr` is not part of the sources at hand; each use is modelled from the specification
  and marked so.
-/

namespace coroutines

/-- Handle of a coroutine: the address held by a `coroutine_weak_ptr`. -/
abbrev Coroutine := Nat

/-- Ways in which a member function does not return normally. -/
inductive Fault where
  /-- An `assert(...)` did not hold. -/
  | assertion
  /-- The expression `_processors[i]` was evaluated with `i ≥ _processors.size()`. -/
  | out_of_range
  /-- A `processor*` was dereferenced that points to no processor of `_processors`. -/
  | dangling
deriving DecidableEq, Repr

/-- The state of one processor that the scheduler can observe: its address, its deque of
runnable coroutines and whether its thread is running a coroutine right now. -/
structure processor where
  id : Nat
  queue : List Coroutine
  running : Bool
deriving DecidableEq, Repr

/-- Modelled from the spec: `processor::enqueue(first, last)`, whose source is missing.  The
processor answers whether it takes the range (`accepts`, the spec's refusal of a full bounded
deque, is left open); a range that is taken is put behind the coroutines already in the deque,
a range that is refused leaves the deque as it was. -/
def processor.enqueue (accepts : processor → List Coroutine → Bool) (p : processor)
    (range : List Coroutine) : Bool × processor :=
  if accepts p range then (true, { p with queue := p.queue ++ range }) else (false, p)

/-- The members of `scheduler` that the functions below read and write.  `_coroutines` is the
registry of live coroutines, in the order in which they were registered. -/
structure scheduler where
  _active_processors : Nat
  _blocked_processors : Nat
  _processors : List processor
  _starved_processors : List Nat
  _global_queue : List Coroutine
  _coroutines : List Coroutine := []
deriving DecidableEq, Repr

/-- One call of `processor::enqueue` made by the scheduler, with the answer it got. -/
inductive enqueue_call where
  /-- The call `_processors[index].enqueue(first, last)`. -/
  | at_index (index : Nat) (accepted : Bool)
  /-- The call `pc->enqueue(first, last)` through a `processor*`. -/
  | through (pc : Nat) (accepted : Bool)
deriving DecidableEq, Repr

/-- A draw of `std::uniform_int_distribution<unsigned>(lo, hi)`: the raw value `raw` of the
generator reduced into `[lo, hi]`. -/
def uniform_int_distribution (lo hi raw : Nat) : Nat :=
  lo + raw % (hi - lo + 1)

/-- The function `scheduler::random_index`: a draw between `0` and
`_active_processors + _blocked_processors - 1`. -/
def scheduler.random_index (s : scheduler) (raw : Nat) : Nat :=
  uniform_int_distribution 0 (s._active_processors + s._blocked_processors - 1) raw

/-- Modelled from the spec: `processor_container::index_of(pc)`, whose source is missing: the
position of the first processor whose address is `pc`, and `size()` when there is none. -/
def index_of (ps : List processor) (pc : Nat) : Nat :=
  ps.findIdx (fun p => p.id == pc)

/-- The call `pc->enqueue(first, last)`: the processor that `pc` points to is looked up in
`_processors` and takes the call. -/
def enqueue_through (accepts : processor → List Coroutine → Bool) (ps : List processor)
    (pc : Nat) (range : List Coroutine) : Except Fault (Bool × List processor) :=
  match ps[index_of ps pc]? with
  | none => .error .dangling
  | some p =>
    .ok ((p.enqueue accepts range).1, ps.set (index_of ps pc) (p.enqueue accepts range).2)

/-- The `for` loop of `scheduler::schedule`, with `todo` iterations left: the range is offered
to `_processors[index]`; on acceptance the loop is left (`true`), on refusal `index` moves to
its successor modulo `live`.  The calls made so far are collected in `calls`. -/
def scheduler.schedule_loop (accepts : processor → List Coroutine → Bool)
    (range : List Coroutine) (live : Nat) :
    Nat → Nat → List processor → List enqueue_call →
      Except Fault (Bool × List processor × List enqueue_call)
  | 0, _, ps, calls => .ok (false, ps, calls)
  | todo + 1, index, ps, calls =>
    match ps[index]? with
    | none => .error .out_of_range
    | some p =>
      if (p.enqueue accepts range).1 then
        .ok (true, ps.set index (p.enqueue accepts range).2, calls ++ [.at_index index true])
      else
        scheduler.schedule_loop accepts range live todo ((index + 1) % live)
          (ps.set index (p.enqueue accepts range).2) (calls ++ [.at_index index false])

/-- The function `scheduler::schedule(first, last)`.  `raw` is the value the random generator
gives when it is asked.  The result is the state after the call and the calls of
`processor::enqueue` that were made, in order. -/
def scheduler.schedule (accepts : processor → List Coroutine → Bool) (raw : Nat)
    (s : scheduler) (range : List Coroutine) : Except Fault (scheduler × List enqueue_call) :=
  if range.isEmpty then .ok (s, [])
  else
    match s._starved_processors.getLast? with
    | some starved =>
      match enqueue_through accepts s._processors starved range with
      | .error f => .error f
      | .ok (r, ps) =>
        if r then
          .ok ({ s with _starved_processors := s._starved_processors.dropLast,
                        _processors := ps }, [.through starved true])
        else .error .assertion
    | none =>
      match scheduler.schedule_loop accepts range
          (s._active_processors + s._blocked_processors)
          (s._active_processors + s._blocked_processors) (s.random_index raw)
          s._processors [] with
      | .error f => .error f
      | .ok (true, ps, calls) => .ok ({ s with _processors := ps }, calls)
      | .ok (false, ps, calls) =>
        .ok ({ s with _processors := ps, _global_queue := s._global_queue ++ range }, calls)

/-- Modelled from the spec: `processor::steal(out)`, whose source is missing.  The spec has it
move approximately half of the deque from the end of the thieves into `out`; how many
coroutines that is for a deque of a given depth is left open (`quantum`).  The stolen
coroutines come off the deque, in order, and the rest stays. -/
def processor.steal (quantum : Nat → Nat) (p : processor) : List Coroutine × processor :=
  (p.queue.take (quantum p.queue.length),
    { p with queue := p.queue.drop (quantum p.queue.length) })

/-- Depth of the deque of `_processors[i]`. -/
def depth_at (ps : List processor) (i : Nat) : Nat :=
  match ps[i]? with
  | some p => p.queue.length
  | none => 0

/-- Modelled from the spec: `processor_container::most_busy_index(from, to)`, whose source is
missing: the first index in `[from, to)` whose processor has the greatest deque depth. -/
def most_busy_index (ps : List processor) (first last : Nat) : Nat :=
  (List.range' first (last - first)).foldl
    (fun best i => if depth_at ps best < depth_at ps i then i else best) first

/-- The function `scheduler::processor_starved(pc)`. -/
def scheduler.processor_starved (accepts : processor → List Coroutine → Bool)
    (quantum : Nat → Nat) (s : scheduler) (pc : Nat) : Except Fault scheduler :=
  if index_of s._processors pc < s._active_processors + s._blocked_processors then
    if !s._global_queue.isEmpty then
      match enqueue_through accepts s._processors pc s._global_queue with
      | .error f => .error f
      | .ok (_, ps) => .ok { s with _processors := ps, _global_queue := [] }
    else
      match s._processors[most_busy_index s._processors 0 s._active_processors]? with
      | none => .error .out_of_range
      | some victim =>
        if !(victim.steal quantum).1.isEmpty then
          match enqueue_through accepts
              (s._processors.set (most_busy_index s._processors 0 s._active_processors)
                (victim.steal quantum).2) pc (victim.steal quantum).1 with
          | .error f => .error f
          | .ok (_, ps) => .ok { s with _processors := ps }
        else
          .ok { s with
                _processors :=
                  (s._processors.set (most_busy_index s._processors 0 s._active_processors)
                    (victim.steal quantum).2),
                _starved_processors := s._starved_processors ++ [pc] }
  else .ok s

/-- Modelled from the spec: the processor that `_processors.emplace_back(*this)` constructs,
at the address `fresh`: its deque is empty and it runs no coroutine. -/
def processor.fresh (fresh : Nat) : processor :=
  { id := fresh, queue := [], running := false }

/-- The block of `scheduler::processor_blocked` that runs under the mutex: the counter of
blocked processors goes up by one, and a processor is constructed at the address `fresh` when
there are fewer processors than `_active_processors + _blocked_processors`. -/
def scheduler.processor_blocked_locked (fresh : Nat) (s : scheduler) : scheduler :=
  let s1 := { s with _blocked_processors := s._blocked_processors + 1 }
  if s1._processors.length < s1._active_processors + s1._blocked_processors then
    { s1 with _processors := s1._processors ++ [processor.fresh fresh] }
  else s1

/-- The function `scheduler::processor_blocked(pc, queue)`.  `fresh` is the address at which a
processor is constructed if one is; `raw` is the value of the random generator used by
`schedule`. -/
def scheduler.processor_blocked (accepts : processor → List Coroutine → Bool) (raw fresh : Nat)
    (s : scheduler) (_pc : Nat) (queue : List Coroutine) :
    Except Fault (scheduler × List enqueue_call) :=
  (s.processor_blocked_locked fresh).schedule accepts raw queue

/-- Modelled from the spec: `processor::stop_if_idle()`, whose source is missing: the
processor stops, and says so, only if its deque is empty and it is not running a coroutine. -/
def processor.stop_if_idle (p : processor) : Bool :=
  p.queue.isEmpty && !p.running

/-- The `while` loop of `scheduler::remove_inactive_processors`, run for at most `fuel`
iterations; each iteration either leaves the loop or pops one processor. -/
def scheduler.remove_inactive_loop : Nat → scheduler → scheduler
  | 0, s => s
  | fuel + 1, s =>
    if s._processors.length > s._active_processors * 2 + s._blocked_processors then
      match s._processors.getLast? with
      | none => s
      | some back =>
        if back.stop_if_idle then
          scheduler.remove_inactive_loop fuel
            { s with
              _starved_processors := s._starved_processors.filter (fun pc => pc != back.id),
              _processors := s._processors.dropLast }
        else s
    else s

/-- The function `scheduler::remove_inactive_processors`.  The loop pops a processor in every
iteration that does not leave it, so `_processors.size()` iterations are enough. -/
def scheduler.remove_inactive_processors (s : scheduler) : scheduler :=
  scheduler.remove_inactive_loop s._processors.length s

/-- The function `scheduler::processor_unblocked(pc)`. -/
def scheduler.processor_unblocked (s : scheduler) (_pc : Nat) : Except Fault scheduler :=
  if 0 < s._blocked_processors then
    .ok (scheduler.remove_inactive_processors
      { s with _blocked_processors := s._blocked_processors - 1 })
  else .error .assertion

/-- The coroutine handles that are at home in a processor deque or in the global queue. -/
def scheduler.handles (s : scheduler) : List Coroutine :=
  (s._processors.map (fun p => p.queue)).flatten ++ s._global_queue

/-- Modelled from the spec: `find_ptr(container, ptr)` of `coroutines/algorithm.hpp`, whose
source is missing: the position of the first element that holds `ptr`, and the position of
`end()`, the length, when there is none. -/
def find_ptr (container : List Coroutine) (ptr : Coroutine) : Nat :=
  container.findIdx (fun c => c == ptr)

/-- The function `scheduler::coroutine_finished(coro)`.  A return carries the state and
whether `_coro_cv.notify_all()` was called; the failed `assert` carries the state in which it
failed. -/
def scheduler.coroutine_finished (s : scheduler) (coro : Coroutine) :
    Except (Fault × scheduler) (scheduler × Bool) :=
  if find_ptr s._coroutines coro = s._coroutines.length then .error (.assertion, s)
  else
    .ok ({ s with _coroutines := s._coroutines.eraseIdx (find_ptr s._coroutines coro) },
      (s._coroutines.eraseIdx (find_ptr s._coroutines coro)).isEmpty)

/-- What a coroutine does while it waits on a condition variable, in order. -/
inductive wait_event where
  /-- The predicate was evaluated, with this value. -/
  | pred (value : Bool)
  /-- The call `lock.unlock()`. -/
  | unlock
  /-- The call `_monitor.wait()`: the coroutine is parked until it is woken. -/
  | park
  /-- The call `lock.lock()`. -/
  | lock
deriving DecidableEq, Repr

/-- The function `condition_variable::wait(Lock&)`: unlock, park in the monitor, lock again.
`W` is the state of everything the coroutine can observe; `unlock`, `park` and `lock` say what
each of the three calls has made of it by the time the call returns. -/
def condition_variable.wait {W : Type} (unlock park lock : W → W)
    (w : W × List wait_event) : W × List wait_event :=
  (lock (park (unlock w.1)), w.2 ++ [.unlock, .park, .lock])

/-- The function `condition_variable::wait(Lock&, Predicate)`: `while(!pred()) wait(lock);`,
run for at most `fuel` evaluations of the predicate.  `none` says that the fuel ran out with
the loop still going. -/
def condition_variable.wait_pred {W : Type} (pred : W → Bool) (unlock park lock : W → W) :
    Nat → W × List wait_event → Option (W × List wait_event)
  | 0, _ => none
  | fuel + 1, w =>
    if pred w.1 then some (w.1, w.2 ++ [.pred true])
    else condition_variable.wait_pred pred unlock park lock fuel
      (condition_variable.wait unlock park lock (w.1, w.2 ++ [.pred false]))

/-- The function `scheduler::wait`: a wait on `_coro_cv` with the predicate
`_coroutines.empty()`.  The lock is `_coroutines_mutex`, of which the state keeps no record;
`park` says in what state the scheduler is when the waiting thread is woken. -/
def scheduler.wait (park : scheduler → scheduler) (fuel : Nat) (s : scheduler) :
    Option (scheduler × List wait_event) :=
  condition_variable.wait_pred (fun s => s._coroutines.isEmpty) id park id fuel (s, [])

/-- The wait set of a `monitor`: the coroutines in `_waiting`, oldest first. -/
structure monitor where
  _waiting : List Coroutine
deriving DecidableEq, Repr

/-- Modelled from the spec: the ready queue of a `context`, whose source is missing. -/
structure context where
  queue : List Coroutine
deriving DecidableEq, Repr

/-- Modelled from the spec: `context::enqueue(list)`, whose source is missing: the coroutines
of the list go behind the ready queue, in order. -/
def context.enqueue (ctx : context) (batch : List Coroutine) : context :=
  { ctx with queue := ctx.queue ++ batch }

/-- Modelled from the spec: `thread_safe_queue::push(item)`, whose source is missing: the
item goes to the back of the queue, the wait set of a monitor being first in, first out. -/
def thread_safe_queue.push (queue : List Coroutine) (item : Coroutine) : List Coroutine :=
  queue ++ [item]

/-- Modelled from the spec: `thread_safe_queue::get_all(out)`, whose source is missing: all
items move to `out`, oldest first, and the queue is left empty.  The result is `out` and the
queue after the call. -/
def thread_safe_queue.get_all (queue : List Coroutine) : List Coroutine × List Coroutine :=
  (queue, [])

/-- The constructor `monitor::monitor()`: nobody waits. -/
def monitor.new : monitor :=
  { _waiting := [] }

/-- The function `monitor::wait()`, called with `current_corutine()` being `current`: the hook
that runs when the coroutine has yielded pushes it into `_waiting`. -/
def monitor.wait (m : monitor) (current : Option Coroutine) : Except Fault monitor :=
  match current with
  | none => .error .assertion
  | some coro => .ok { m with _waiting := thread_safe_queue.push m._waiting coro }

/-- The function `monitor::wake_all()`, called with `current_context()` being `current`:
`get_all` moves the waiting coroutines into the local list `waiting`, and the one call
`ctx->enqueue(waiting)` hands them over.  The result holds the monitor, the context and the
batches of the calls of `context::enqueue` that were made. -/
def monitor.wake_all (m : monitor) (current : Option context) :
    Except Fault (monitor × context × List (List Coroutine)) :=
  match current with
  | none => .error .assertion
  | some ctx =>
    .ok ({ m with _waiting := (thread_safe_queue.get_all m._waiting).2 },
      ctx.enqueue (thread_safe_queue.get_all m._waiting).1,
      [(thread_safe_queue.get_all m._waiting).1])

/-- Successive calls of `monitor::wait()` by the coroutines `coros`, one after the other. -/
def monitor.wait_each (m : monitor) : List Coroutine → Except Fault monitor
  | [] => .ok m
  | coro :: rest =>
    match m.wait (some coro) with
    | .error f => .error f
    | .ok m' => monitor.wait_each m' rest

/-- The constructor `scheduler::scheduler(active_processors)`: the `assert`, then one
`emplace_back` for each of the `active_processors` processors; `address i` is where the
processor of round `i` of the loop is constructed.  Nothing is blocked, starved or queued in
a new scheduler. -/
def scheduler.new (address : Nat → Nat) (active_processors : Nat) : Except Fault scheduler :=
  if 0 < active_processors then
    .ok { _active_processors := active_processors, _blocked_processors := 0,
          _processors :=
            (List.range active_processors).map (fun i => processor.fresh (address i)),
          _starved_processors := [], _global_queue := [], _coroutines := [] }
  else .error .assertion

/-- The states that a scheduler gets into: it is constructed, and then `schedule`,
`processor_starved` for one of its processors, `processor_blocked` and `processor_unblocked`
are called, each with any answers of `processor::enqueue`, any steal quantum, any value of the
random generator and any address for a new processor.  Between the calls the threads of the
processors run: they change deques and running flags, not the addresses. -/
inductive reachable : scheduler → Prop where
  | construct (address : Nat → Nat) (active_processors : Nat) (s : scheduler) :
      scheduler.new address active_processors = .ok s → reachable s
  | schedule (accepts : processor → List Coroutine → Bool) (raw : Nat)
      (range : List Coroutine) (s s' : scheduler) (calls : List enqueue_call) :
      reachable s → s.schedule accepts raw range = .ok (s', calls) → reachable s'
  | processor_starved (accepts : processor → List Coroutine → Bool) (quantum : Nat → Nat)
      (pc : Nat) (s s' : scheduler) :
      reachable s → pc ∈ s._processors.map (fun p => p.id) →
      s.processor_starved accepts quantum pc = .ok s' → reachable s'
  | processor_blocked (accepts : processor → List Coroutine → Bool) (raw fresh pc : Nat)
      (queue : List Coroutine) (s s' : scheduler) (calls : List enqueue_call) :
      reachable s → s.processor_blocked accepts raw fresh pc queue = .ok (s', calls) →
      reachable s'
  | processor_unblocked (pc : Nat) (s s' : scheduler) :
      reachable s → s.processor_unblocked pc = .ok s' → reachable s'
  | run (s : scheduler) (ps : List processor) :
      reachable s → ps.map (fun p => p.id) = s._processors.map (fun p => p.id) →
      reachable { s with _processors := ps }

/-- The number of processors that `schedule` and `random_index` count as live:
`_active_processors + _blocked_processors`. -/
def scheduler.live (s : scheduler) : Nat :=
  s._active_processors + s._blocked_processors

/-- The index that is `j` cyclic successor steps after the index drawn by `random_index`. -/
def scheduler.probe (s : scheduler) (raw j : Nat) : Nat :=
  (s.random_index raw + j) % s.live

/-- The answer that `_processors[i].enqueue(range)` gives in the processors `ps`. -/
def accepts_at (accepts : processor → List Coroutine → Bool) (ps : List processor)
    (range : List Coroutine) (i : Nat) : Bool :=
  match ps[i]? with
  | some p => accepts p range
  | none => false

/-- The events of one turn of the loop of `wait(lock, pred)` in which the predicate is
false. -/
def waiting_turn : List wait_event :=
  [.pred false, .unlock, .park, .lock]

/-! ## States and answers used in the examples -/

/-- A bounded deque of capacity 2: a range is taken when it fits. -/
def fits_two (p : processor) (range : List Coroutine) : Bool :=
  decide (p.queue.length + range.length ≤ 2)

/-- A steal quantum: half of the deque, rounded down. -/
def half (depth : Nat) : Nat :=
  depth / 2

/-- Two processors of capacity 2, the first one full, no starved processor. -/
def two_processors : scheduler :=
  { _active_processors := 2, _blocked_processors := 0,
    _processors := [⟨100, [1, 2], false⟩, ⟨101, [], false⟩],
    _starved_processors := [], _global_queue := [] }

/-- Two processors, the second of which has reported itself starved. -/
def one_starved : scheduler :=
  { _active_processors := 2, _blocked_processors := 0,
    _processors := [⟨100, [1, 2], false⟩, ⟨101, [], false⟩],
    _starved_processors := [101], _global_queue := [3] }

/-- Two processors, the first with four coroutines in its deque, the second with none. -/
def busy_and_idle : scheduler :=
  { _active_processors := 2, _blocked_processors := 0,
    _processors := [⟨100, [1, 2, 3, 4], false⟩, ⟨101, [], false⟩],
    _starved_processors := [], _global_queue := [] }

/-- One active processor and a second one that was added while the first was blocked and is
still there; a coroutine waits in the global queue. -/
def surplus_processor : scheduler :=
  { _active_processors := 1, _blocked_processors := 0,
    _processors := [⟨100, [1, 2], false⟩, ⟨101, [], false⟩],
    _starved_processors := [], _global_queue := [5] }

/-- One processor of capacity 2 with an empty deque, and three coroutines in the global
queue. -/
def long_global_queue : scheduler :=
  { _active_processors := 1, _blocked_processors := 0,
    _processors := [⟨100, [], false⟩],
    _starved_processors := [], _global_queue := [3, 4, 5] }

/-- Bounded deques of uneven capacity: processor `100` holds four coroutines, every other
processor one; a range is taken when it fits. -/
def uneven_capacity (p : processor) (range : List Coroutine) : Bool :=
  decide (p.queue.length + range.length ≤ if p.id = 100 then 4 else 1)

/-- Four processors, one of them blocked, all but the first idle; two of them are on record
as starved. -/
def four_processors : scheduler :=
  { _active_processors := 1, _blocked_processors := 1,
    _processors := [⟨100, [1], false⟩, ⟨101, [], false⟩, ⟨102, [], false⟩, ⟨103, [], false⟩],
    _starved_processors := [103, 101], _global_queue := [] }

/-- A scheduler with three coroutines in its registry. -/
def three_registered : scheduler :=
  { _active_processors := 1, _blocked_processors := 0,
    _processors := [⟨100, [], false⟩],
    _starved_processors := [], _global_queue := [], _coroutines := [7, 8, 9] }

/-- A new scheduler with one processor, at address 100. -/
def lone_processor : scheduler :=
  { _active_processors := 1, _blocked_processors := 0,
    _processors := [⟨100, [], false⟩],
    _starved_processors := [], _global_queue := [] }

/-- The scheduler `lone_processor` after its processor has reported itself starved. -/
def lone_starved : scheduler :=
  { lone_processor with _starved_processors := [100] }

/-! ## Lists -/

theorem set_same {α : Type} (l : List α) (i : Nat) (a : α) (h : l[i]? = some a) :
    l.set i a = l := by
  induction l generalizing i with
  | nil => rfl
  | cons x xs ih =>
    cases i with
    | zero => simp at h; simp [h]
    | succ i => simp at h; simp [ih i h]

/-! ## The probing loop of `schedule` -/

theorem cyclic_succ (live index j : Nat) :
    ((index + 1) % live + j) % live = (index + (j + 1)) % live := by
  rw [Nat.mod_add_mod]; congr 1; omega

/-- The loop offers the range to `index`, its successor, and so on, and is left at the first
processor that accepts; when `todo` processors in a row refuse it ends with `false` and the
processors as they were. -/
theorem schedule_loop_spec (accepts : processor → List Coroutine → Bool)
    (range : List Coroutine) (live : Nat) (ps : List processor) (hlive : live ≤ ps.length) :
    ∀ (todo index : Nat) (calls : List enqueue_call), index < live →
      (∃ k p, k < todo ∧
        (∀ j, j < k → accepts_at accepts ps range ((index + j) % live) = false) ∧
        ps[(index + k) % live]? = some p ∧ accepts p range = true ∧
        scheduler.schedule_loop accepts range live todo index ps calls =
          .ok (true, ps.set ((index + k) % live) { p with queue := p.queue ++ range },
            calls ++ (List.range k).map (fun j => .at_index ((index + j) % live) false)
              ++ [.at_index ((index + k) % live) true])) ∨
      ((∀ j, j < todo → accepts_at accepts ps range ((index + j) % live) = false) ∧
        scheduler.schedule_loop accepts range live todo index ps calls =
          .ok (false, ps,
            calls ++ (List.range todo).map (fun j => .at_index ((index + j) % live) false))) := by
  intro todo
  induction todo with
  | zero =>
    intro index calls _
    right
    exact ⟨fun j hj => absurd hj (Nat.not_lt_zero j), by simp [scheduler.schedule_loop]⟩
  | succ todo ih =>
    intro index calls hidx
    have hpos : 0 < live := Nat.lt_of_le_of_lt (Nat.zero_le _) hidx
    have hself : index % live = index := Nat.mod_eq_of_lt hidx
    have hin : index < ps.length := Nat.lt_of_lt_of_le hidx hlive
    have hget : ps[index]? = some ps[index] := List.getElem?_eq_getElem hin
    by_cases hacc : accepts ps[index] range = true
    · left
      refine ⟨0, ps[index], Nat.succ_pos _, fun j hj => absurd hj (Nat.not_lt_zero j), ?_, hacc, ?_⟩
      · simp [hself]
      · simp [scheduler.schedule_loop, hget, processor.enqueue, hacc, hself]
    · have hrej : accepts ps[index] range = false := by simpa using hacc
      have hstep : scheduler.schedule_loop accepts range live (todo + 1) index ps calls =
          scheduler.schedule_loop accepts range live todo ((index + 1) % live) ps
            (calls ++ [.at_index index false]) := by
        simp [scheduler.schedule_loop, hget, processor.enqueue, hrej, set_same ps index _ hget]
      have hfirst : accepts_at accepts ps range ((index + 0) % live) = false := by
        simp [accepts_at, hself, hget, hrej]
      have hcalls : ∀ n : Nat,
          (calls ++ [enqueue_call.at_index index false]) ++
            (List.range n).map (fun j => enqueue_call.at_index (((index + 1) % live + j) % live)
                false)
          = calls ++ (List.range (n + 1)).map
              (fun j => enqueue_call.at_index ((index + j) % live) false) := by
        intro n
        rw [List.range_succ_eq_map, List.map_cons, List.map_map, List.append_assoc]
        simp only [hself, Function.comp_def, cyclic_succ, Nat.succ_eq_add_one, Nat.add_zero,
          List.cons_append, List.nil_append, List.singleton_append]
      rcases ih ((index + 1) % live) (calls ++ [.at_index index false])
          (Nat.mod_lt _ hpos) with ⟨k, p, hk, hbefore, hp, hpa, hres⟩ | ⟨hall, hres⟩
      · left
        refine ⟨k + 1, p, Nat.succ_lt_succ hk, ?_, ?_, hpa, ?_⟩
        · intro j hj
          cases j with
          | zero => exact hfirst
          | succ j =>
            have := hbefore j (Nat.lt_of_succ_lt_succ hj)
            rwa [cyclic_succ] at this
        · rwa [cyclic_succ] at hp
        · rw [hstep, hres, hcalls k, cyclic_succ]
      · right
        refine ⟨?_, ?_⟩
        · intro j hj
          cases j with
          | zero => exact hfirst
          | succ j =>
            have := hall j (Nat.lt_of_succ_lt_succ hj)
            rwa [cyclic_succ] at this
        · rw [hstep, hres, hcalls todo]

theorem random_index_lt (s : scheduler) (raw : Nat) (hpos : 0 < s.live) :
    s.random_index raw < s.live := by
  unfold scheduler.live at hpos ⊢
  unfold scheduler.random_index uniform_int_distribution
  have h : s._active_processors + s._blocked_processors - 1 - 0 + 1
      = s._active_processors + s._blocked_processors := by omega
  rw [h, Nat.zero_add]
  exact Nat.mod_lt _ hpos

theorem cyclic_cover (live start i : Nat) (hs : start < live) (hi : i < live) :
    ∃ j, j < live ∧ (start + j) % live = i := by
  by_cases h : start ≤ i
  · refine ⟨i - start, by omega, ?_⟩
    rw [Nat.add_sub_cancel' h]; exact Nat.mod_eq_of_lt hi
  · refine ⟨live - start + i, by omega, ?_⟩
    have : start + (live - start + i) = i + live := by omega
    rw [this, Nat.add_mod_right]; exact Nat.mod_eq_of_lt hi

theorem cyclic_inj (live start j₁ j₂ : Nat) (h₁ : j₁ < live) (h₂ : j₂ < live)
    (h : (start + j₁) % live = (start + j₂) % live) : j₁ = j₂ := by
  have hm : j₁ ≡ j₂ [MOD live] := Nat.ModEq.add_left_cancel' start h
  have := hm
  unfold Nat.ModEq at this
  rwa [Nat.mod_eq_of_lt h₁, Nat.mod_eq_of_lt h₂] at this

/-- C1: without starved processors, `schedule` of a non-empty range starts at an index below
`_active_processors + _blocked_processors`; walking cyclic successors from there meets every
index of that interval exactly once; the range is offered along that walk and the walk stops
at the first processor that accepts, which alone gets the range behind its deque, with
`_global_queue` untouched; when all of them refused, no deque changes and the range goes to
the end of `_global_queue`, in order; and that is the only case in which it goes there. -/
theorem schedule_probes_cyclically (accepts : processor → List Coroutine → Bool) (raw : Nat)
    (s : scheduler) (range : List Coroutine)
    (hstarved : s._starved_processors = []) (hrange : range ≠ [])
    (hpos : 0 < s.live) (hlive : s.live ≤ s._processors.length) :
    s.random_index raw < s.live ∧
    (∀ i, i < s.live → ∃ j, j < s.live ∧ s.probe raw j = i) ∧
    (∀ j₁ j₂, j₁ < s.live → j₂ < s.live → s.probe raw j₁ = s.probe raw j₂ → j₁ = j₂) ∧
    ((∃ k p, k < s.live ∧
        (∀ j, j < k → accepts_at accepts s._processors range (s.probe raw j) = false) ∧
        s._processors[s.probe raw k]? = some p ∧ accepts p range = true ∧
        s.schedule accepts raw range =
          .ok ({ s with _processors :=
                  s._processors.set (s.probe raw k) { p with queue := p.queue ++ range } },
            (List.range k).map (fun j => .at_index (s.probe raw j) false)
              ++ [.at_index (s.probe raw k) true])) ∨
      ((∀ i, i < s.live → accepts_at accepts s._processors range i = false) ∧
        s.schedule accepts raw range =
          .ok ({ s with _global_queue := s._global_queue ++ range },
            (List.range s.live).map (fun j => .at_index (s.probe raw j) false)))) ∧
    (∀ s' calls, s.schedule accepts raw range = .ok (s', calls) →
      (s'._global_queue = s._global_queue ++ range ↔
        ∀ i, i < s.live → accepts_at accepts s._processors range i = false)) := by
  have hstart := random_index_lt s raw hpos
  have hne : range.isEmpty = false := by
    cases range with
    | nil => exact absurd rfl hrange
    | cons _ _ => rfl
  have hcases : (∃ k p, k < s.live ∧
        (∀ j, j < k → accepts_at accepts s._processors range (s.probe raw j) = false) ∧
        s._processors[s.probe raw k]? = some p ∧ accepts p range = true ∧
        s.schedule accepts raw range =
          .ok ({ s with _processors :=
                  s._processors.set (s.probe raw k) { p with queue := p.queue ++ range } },
            (List.range k).map (fun j => .at_index (s.probe raw j) false)
              ++ [.at_index (s.probe raw k) true])) ∨
      ((∀ i, i < s.live → accepts_at accepts s._processors range i = false) ∧
        s.schedule accepts raw range =
          .ok ({ s with _global_queue := s._global_queue ++ range },
            (List.range s.live).map (fun j => .at_index (s.probe raw j) false))) := by
    rcases schedule_loop_spec accepts range s.live s._processors hlive s.live
        (s.random_index raw) [] hstart with ⟨k, p, hk, hbefore, hp, hpa, hres⟩ | ⟨hall, hres⟩
    · left
      refine ⟨k, p, hk, hbefore, hp, hpa, ?_⟩
      unfold scheduler.live at hres
      simp [scheduler.schedule, hne, hstarved, hres, scheduler.probe, scheduler.live]
    · right
      refine ⟨?_, ?_⟩
      · intro i hi
        obtain ⟨j, hj, hji⟩ := cyclic_cover _ _ i hstart hi
        rw [← hji]; exact hall j hj
      · unfold scheduler.live at hres
        simp [scheduler.schedule, hne, hstarved, hres, scheduler.probe, scheduler.live]
  refine ⟨hstart, fun i hi => cyclic_cover _ _ i hstart hi,
    fun j₁ j₂ h₁ h₂ h => cyclic_inj _ _ j₁ j₂ h₁ h₂ h, hcases, ?_⟩
  intro s' calls hres
  rcases hcases with ⟨k, p, _, _, hp, hpa, hout⟩ | ⟨hall, hout⟩
  · rw [hout] at hres
    simp only [Except.ok.injEq, Prod.mk.injEq] at hres
    rw [← hres.1]
    constructor
    · intro hgq
      simp only [] at hgq
      have : range = [] := by
        have := congrArg List.length hgq
        simpa using this
      exact absurd this hrange
    · intro hall
      have hlt : s.probe raw k < s.live := Nat.mod_lt _ hpos
      have := hall _ hlt
      simp [accepts_at, hp, hpa] at this
  · rw [hout] at hres
    simp only [Except.ok.injEq, Prod.mk.injEq] at hres
    rw [← hres.1]
    exact ⟨fun _ => hall, fun _ => rfl⟩

theorem schedule_probes_cyclically_witness :
    (two_processors._starved_processors = [] ∧ [7] ≠ ([] : List Coroutine) ∧
      0 < two_processors.live ∧ two_processors.live ≤ two_processors._processors.length) ∧
    (two_processors.random_index 0 < two_processors.live ∧
    (∀ i, i < two_processors.live → ∃ j, j < two_processors.live ∧ two_processors.probe 0 j = i) ∧
    (∀ j₁ j₂, j₁ < two_processors.live → j₂ < two_processors.live →
      two_processors.probe 0 j₁ = two_processors.probe 0 j₂ → j₁ = j₂) ∧
    ((∃ k p, k < two_processors.live ∧
        (∀ j, j < k →
          accepts_at fits_two two_processors._processors [7] (two_processors.probe 0 j) = false) ∧
        two_processors._processors[two_processors.probe 0 k]? = some p ∧ fits_two p [7] = true ∧
        two_processors.schedule fits_two 0 [7] =
          .ok ({ two_processors with _processors :=
                  (two_processors._processors.set (two_processors.probe 0 k)
                    { p with queue := p.queue ++ [7] }) },
            (List.range k).map (fun j => .at_index (two_processors.probe 0 j) false)
              ++ [.at_index (two_processors.probe 0 k) true])) ∨
      ((∀ i, i < two_processors.live →
          accepts_at fits_two two_processors._processors [7] i = false) ∧
        two_processors.schedule fits_two 0 [7] =
          .ok ({ two_processors with _global_queue := two_processors._global_queue ++ [7] },
            (List.range two_processors.live).map
              (fun j => .at_index (two_processors.probe 0 j) false)))) ∧
    (∀ s' calls, two_processors.schedule fits_two 0 [7] = .ok (s', calls) →
      (s'._global_queue = two_processors._global_queue ++ [7] ↔
        ∀ i, i < two_processors.live →
          accepts_at fits_two two_processors._processors [7] i = false))) :=
  ⟨⟨by decide, by decide, by decide, by decide⟩,
    schedule_probes_cyclically fits_two 0 two_processors [7]
      (by decide) (by decide) (by decide) (by decide)⟩

theorem schedule_example_second_accepts : two_processors.schedule fits_two 0 [7] =
    .ok ({ two_processors with _processors := [⟨100, [1, 2], false⟩, ⟨101, [7], false⟩] },
      [.at_index 0 false, .at_index 1 true]) := by rfl

theorem schedule_example_all_refuse : two_processors.schedule fits_two 1 [7, 8, 9] =
    .ok ({ two_processors with _global_queue := [7, 8, 9] },
      [.at_index 1 false, .at_index 0 false]) := by rfl

/-! ## `schedule` with a starved processor -/

theorem nonempty_of_last {α : Type} (l : List α) (a : α) (h : l.getLast? = some a) :
    l.isEmpty = false ∧ l.dropLast ++ [a] = l := by
  refine ⟨?_, List.dropLast_append_getLast? a (by simp [h])⟩
  cases l with
  | nil => simp at h
  | cons _ _ => rfl

theorem schedule_example_starved : one_starved.schedule fits_two 0 [7, 8] =
    .ok ({ one_starved with
            _starved_processors := [],
            _processors := [⟨100, [1, 2], false⟩, ⟨101, [7, 8], false⟩] },
      [.through 101 true]) := by rfl

theorem schedule_example_starved_refuses :
    one_starved.schedule fits_two 0 [7, 8, 9] = .error .assertion := by rfl

/-- The state `lone_starved` comes about: the processor of a new scheduler for one processor
finds nothing to run or to steal and reports itself starved. -/
theorem lone_starved_reachable : reachable lone_starved :=
  reachable.processor_starved fits_two half 100 lone_processor lone_starved
    (reachable.construct (fun i => 100 + i) 1 lone_processor (by rfl)) (by decide) (by rfl)

theorem steal_nothing (quantum : Nat → Nat) (p : processor)
    (h : (p.steal quantum).1 = []) : (p.steal quantum).2 = p := by
  cases p with
  | mk id queue running =>
    simp only [processor.steal, List.take_eq_nil_iff] at h ⊢
    rcases h with h | h
    · simp [h]
    · simp [h]

theorem steal_conserves (quantum : Nat → Nat) (p : processor) :
    (p.steal quantum).1 ++ (p.steal quantum).2.queue = p.queue := by
  simp [processor.steal]

theorem busiest_fold (ps : List processor) (l : List Nat) :
    ∀ init : Nat,
      (l.foldl (fun best i => if depth_at ps best < depth_at ps i then i else best) init = init ∨
        l.foldl (fun best i => if depth_at ps best < depth_at ps i then i else best) init ∈ l) ∧
      depth_at ps init ≤ depth_at ps
        (l.foldl (fun best i => if depth_at ps best < depth_at ps i then i else best) init) ∧
      ∀ i ∈ l, depth_at ps i ≤ depth_at ps
        (l.foldl (fun best i => if depth_at ps best < depth_at ps i then i else best) init) := by
  induction l with
  | nil => intro init; simp
  | cons x xs ih =>
    intro init
    simp only [List.foldl_cons, List.mem_cons, forall_eq_or_imp]
    by_cases hlt : depth_at ps init < depth_at ps x
    · obtain ⟨h1, h2, h3⟩ := ih x
      simp only [hlt, if_true]
      refine ⟨?_, by omega, h2, h3⟩
      rcases h1 with h1 | h1
      · exact Or.inr (Or.inl h1)
      · exact Or.inr (Or.inr h1)
    · obtain ⟨h1, h2, h3⟩ := ih init
      simp only [hlt, if_false]
      refine ⟨?_, h2, by omega, h3⟩
      rcases h1 with h1 | h1
      · exact Or.inl h1
      · exact Or.inr (Or.inr h1)

/-- The index found by `most_busy_index(0, n)` lies in `[0, n)` and no processor of that
interval has a deeper deque. -/
theorem most_busy_index_spec (ps : List processor) (n : Nat) (hn : 0 < n) :
    most_busy_index ps 0 n < n ∧
    ∀ i, i < n → depth_at ps i ≤ depth_at ps (most_busy_index ps 0 n) := by
  obtain ⟨h1, _, h3⟩ := busiest_fold ps (List.range' 0 (n - 0)) 0
  refine ⟨?_, ?_⟩
  · unfold most_busy_index
    rcases h1 with h1 | h1
    · rw [h1]; exact hn
    · have := List.mem_range'_1.mp h1
      omega
  · intro i hi
    exact h3 i (List.mem_range'_1.mpr ⟨Nat.zero_le _, by omega⟩)

theorem processor_starved_example_steal : busy_and_idle.processor_starved fits_two half 101 =
    .ok { busy_and_idle with
          _processors := [⟨100, [3, 4], false⟩, ⟨101, [1, 2], false⟩] } := by rfl

theorem processor_starved_example_starved :
    two_processors.processor_starved fits_two (fun _ => 0) 101 =
      .ok { two_processors with _starved_processors := [101] } := by rfl

/-- The state `surplus_processor` comes about: the processor of a new scheduler for one
processor blocks with an empty deque, so that a second processor is constructed, and unblocks;
then two coroutines are scheduled and go to the first processor, and a third one finds the
deque of that processor, the only one that is probed, full. -/
theorem surplus_processor_reachable : reachable surplus_processor :=
  reachable.schedule fits_two 0 [5]
    { surplus_processor with _global_queue := [] } surplus_processor [.at_index 0 false]
    (reachable.schedule fits_two 0 [1, 2]
      { surplus_processor with
        _processors := [⟨100, [], false⟩, ⟨101, [], false⟩], _global_queue := [] }
      { surplus_processor with _global_queue := [] } [.at_index 0 true]
      (reachable.processor_unblocked 100
        { surplus_processor with
          _blocked_processors := 1,
          _processors := [⟨100, [], false⟩, ⟨101, [], false⟩], _global_queue := [] }
        { surplus_processor with
          _processors := [⟨100, [], false⟩, ⟨101, [], false⟩], _global_queue := [] }
        (reachable.processor_blocked fits_two 0 101 100 []
          { surplus_processor with _processors := [⟨100, [], false⟩], _global_queue := [] }
          { surplus_processor with
            _blocked_processors := 1,
            _processors := [⟨100, [], false⟩, ⟨101, [], false⟩], _global_queue := [] } []
          (reachable.construct (fun i => 100 + i) 1 _ (by rfl)) (by rfl))
        (by rfl))
      (by rfl))
    (by rfl)

/-- The state `long_global_queue` comes about: the one processor is given two coroutines,
three more find its deque full and go to the global queue, and the processor runs its deque
empty. -/
theorem long_global_queue_reachable : reachable long_global_queue :=
  reachable.run { long_global_queue with _processors := [⟨100, [1, 2], false⟩] }
    [⟨100, [], false⟩]
    (reachable.schedule fits_two 0 [3, 4, 5]
      { long_global_queue with _processors := [⟨100, [1, 2], false⟩], _global_queue := [] }
      { long_global_queue with _processors := [⟨100, [1, 2], false⟩] } [.at_index 0 false]
      (reachable.schedule fits_two 0 [1, 2]
        { long_global_queue with _global_queue := [] }
        { long_global_queue with _processors := [⟨100, [1, 2], false⟩], _global_queue := [] }
        [.at_index 0 true]
        (reachable.construct (fun i => 100 + i) 1 _ (by rfl)) (by rfl))
      (by rfl))
    (by rfl)

/-- The state `busy_and_idle` comes about: four coroutines are scheduled in one range on a new
scheduler for two processors. -/
theorem busy_and_idle_reachable : reachable busy_and_idle :=
  reachable.schedule uneven_capacity 0 [1, 2, 3, 4]
    { busy_and_idle with _processors := [⟨100, [], false⟩, ⟨101, [], false⟩] } busy_and_idle
    [.at_index 0 true]
    (reachable.construct (fun i => 100 + i) 2 _ (by rfl)) (by rfl)

/-- C4 fails on the code: `processor_starved` drops the answer of `pc->enqueue`.  When the
processor refuses the global queue, `_global_queue` is cleared all the same and the three
handles `3`, `4`, `5` are in no deque and not in the global queue afterwards; when it refuses
a stolen batch, the handles `1`, `2` that came off the deque of the victim are gone.  Both
states come about. -/
theorem processor_starved_loses_refused_handles :
    reachable long_global_queue ∧
    long_global_queue.handles = [3, 4, 5] ∧
    long_global_queue.processor_starved fits_two half 100 =
      .ok { long_global_queue with _global_queue := [] } ∧
    ({ long_global_queue with _global_queue := [] } : scheduler).handles = [] ∧
    reachable busy_and_idle ∧
    busy_and_idle.handles = [1, 2, 3, 4] ∧
    busy_and_idle.processor_starved uneven_capacity half 101 =
      .ok { busy_and_idle with _processors := [⟨100, [3, 4], false⟩, ⟨101, [], false⟩] } ∧
    ({ busy_and_idle with
       _processors := [⟨100, [3, 4], false⟩, ⟨101, [], false⟩] } : scheduler).handles = [3, 4] :=
  ⟨long_global_queue_reachable, by decide, by rfl, by decide,
    busy_and_idle_reachable, by decide, by rfl, by decide⟩

/-! ## What `schedule` leaves alone -/

theorem enqueue_id (accepts : processor → List Coroutine → Bool) (p : processor)
    (range : List Coroutine) : (p.enqueue accepts range).2.id = p.id := by
  unfold processor.enqueue
  split <;> rfl

theorem map_id_set (ps : List processor) (i : Nat) (p q : processor)
    (h : ps[i]? = some p) (hid : q.id = p.id) :
    (ps.set i q).map (fun x => x.id) = ps.map (fun x => x.id) := by
  rw [List.map_set, hid]
  exact set_same _ _ _ (by simp [h])

theorem schedule_loop_ids (accepts : processor → List Coroutine → Bool)
    (range : List Coroutine) (live : Nat) :
    ∀ (todo index : Nat) (ps : List processor) (calls : List enqueue_call)
      (r : Bool) (ps' : List processor) (calls' : List enqueue_call),
      scheduler.schedule_loop accepts range live todo index ps calls = .ok (r, ps', calls') →
      ps'.map (fun x => x.id) = ps.map (fun x => x.id) := by
  intro todo
  induction todo with
  | zero =>
    intro index ps calls r ps' calls' h
    simp only [scheduler.schedule_loop, Except.ok.injEq, Prod.mk.injEq] at h
    rw [h.2.1]
  | succ todo ih =>
    intro index ps calls r ps' calls' h
    unfold scheduler.schedule_loop at h
    cases hget : ps[index]? with
    | none => simp [hget] at h
    | some p =>
      simp only [hget] at h
      split at h
      · simp only [Except.ok.injEq, Prod.mk.injEq] at h
        rw [← h.2.1]
        exact map_id_set ps index p _ hget (enqueue_id _ _ _)
      · rw [ih _ _ _ _ _ _ h]
        exact map_id_set ps index p _ hget (enqueue_id _ _ _)

theorem enqueue_through_ids (accepts : processor → List Coroutine → Bool)
    (ps : List processor) (pc : Nat) (range : List Coroutine) (r : Bool) (ps' : List processor)
    (h : enqueue_through accepts ps pc range = .ok (r, ps')) :
    ps'.map (fun x => x.id) = ps.map (fun x => x.id) := by
  unfold enqueue_through at h
  cases hget : ps[index_of ps pc]? with
  | none => simp [hget] at h
  | some p =>
    simp only [hget, Except.ok.injEq, Prod.mk.injEq] at h
    rw [← h.2]
    exact map_id_set ps _ p _ hget (enqueue_id _ _ _)

/-- A call of `schedule` that returns keeps the two counters and the addresses of the
processors, in order; `_starved_processors` is as before or has lost its last entry. -/
theorem schedule_shape (accepts : processor → List Coroutine → Bool) (raw : Nat)
    (s s' : scheduler) (range : List Coroutine) (calls : List enqueue_call)
    (h : s.schedule accepts raw range = .ok (s', calls)) :
    s'._active_processors = s._active_processors ∧
    s'._blocked_processors = s._blocked_processors ∧
    s'._processors.map (fun x => x.id) = s._processors.map (fun x => x.id) ∧
    (s'._starved_processors = s._starved_processors ∨
      s'._starved_processors = s._starved_processors.dropLast) := by
  unfold scheduler.schedule at h
  split at h
  · simp only [Except.ok.injEq, Prod.mk.injEq] at h
    rw [← h.1]; exact ⟨rfl, rfl, rfl, Or.inl rfl⟩
  · split at h
    · split at h
      · exact absurd h (by simp)
      · rename_i r ps hthrough
        split at h
        · simp only [Except.ok.injEq, Prod.mk.injEq] at h
          rw [← h.1]
          exact ⟨rfl, rfl, enqueue_through_ids _ _ _ _ _ _ hthrough, Or.inr rfl⟩
        · exact absurd h (by simp)
    · split at h
      · exact absurd h (by simp)
      · rename_i ps calls' hloop
        simp only [Except.ok.injEq, Prod.mk.injEq] at h
        rw [← h.1]
        exact ⟨rfl, rfl, schedule_loop_ids _ _ _ _ _ _ _ _ _ _ hloop, Or.inl rfl⟩
      · rename_i ps calls' hloop
        simp only [Except.ok.injEq, Prod.mk.injEq] at h
        rw [← h.1]
        exact ⟨rfl, rfl, schedule_loop_ids _ _ _ _ _ _ _ _ _ _ hloop, Or.inl rfl⟩

/-- Without starved processors and with `_active_processors + _blocked_processors` processors
at hand, `schedule` returns. -/
theorem schedule_returns (accepts : processor → List Coroutine → Bool) (raw : Nat)
    (s : scheduler) (range : List Coroutine)
    (hstarved : s._starved_processors = []) (hlive : s.live ≤ s._processors.length) :
    ∃ s' calls, s.schedule accepts raw range = .ok (s', calls) := by
  by_cases hr : range.isEmpty = true
  · exact ⟨s, [], by simp [scheduler.schedule, hr]⟩
  · by_cases hpos : 0 < s.live
    · rcases schedule_loop_spec accepts range s.live s._processors hlive s.live
          (s.random_index raw) [] (random_index_lt s raw hpos)
        with ⟨k, p, _, _, _, _, hres⟩ | ⟨_, hres⟩
      · unfold scheduler.live at hres
        exact ⟨_, _, by simp [scheduler.schedule, hr, hstarved, hres]; exact ⟨rfl, rfl⟩⟩
      · unfold scheduler.live at hres
        exact ⟨_, _, by simp [scheduler.schedule, hr, hstarved, hres]; exact ⟨rfl, rfl⟩⟩
    · have hzero : s._active_processors + s._blocked_processors = 0 := by
        unfold scheduler.live at hpos; omega
      exact ⟨_, _, by
        simp [scheduler.schedule, hr, hstarved, hzero, scheduler.schedule_loop]
        exact ⟨rfl, rfl⟩⟩

/-- With a starved processor on record that is a processor of the scheduler and accepts the
range, `schedule` returns. -/
theorem schedule_returns_starved (accepts : processor → List Coroutine → Bool) (raw : Nat)
    (s : scheduler) (range : List Coroutine) (pc : Nat) (p : processor)
    (hlast : s._starved_processors.getLast? = some pc)
    (hp : s._processors[index_of s._processors pc]? = some p)
    (hacc : accepts p range = true) :
    ∃ s' calls, s.schedule accepts raw range = .ok (s', calls) := by
  by_cases hr : range.isEmpty = true
  · exact ⟨s, [], by simp [scheduler.schedule, hr]⟩
  · obtain ⟨hst, _⟩ := nonempty_of_last _ _ hlast
    exact ⟨_, _, by
      simp [scheduler.schedule, hr, hst, hlast, enqueue_through, hp, processor.enqueue, hacc]
      exact ⟨rfl, rfl⟩⟩

/-! ## Where handles are conserved -/

theorem flatten_set_perm (ps : List processor) :
    ∀ (i : Nat) (p q : processor) (a b : List Coroutine), ps[i]? = some p →
      (q.queue ++ a).Perm (p.queue ++ b) →
      (((ps.set i q).map (fun x => x.queue)).flatten ++ a).Perm
        ((ps.map (fun x => x.queue)).flatten ++ b) := by
  induction ps with
  | nil => intro i p q a b h; simp at h
  | cons x xs ih =>
    intro i p q a b h hq
    cases i with
    | zero =>
      simp only [List.getElem?_cons_zero, Option.some.injEq] at h
      subst h
      simp only [List.set_cons_zero, List.map_cons, List.flatten_cons, List.append_assoc]
      have h1 : (q.queue ++ ((xs.map (fun x => x.queue)).flatten ++ a)).Perm
          ((q.queue ++ a) ++ (xs.map (fun x => x.queue)).flatten) := by
        rw [List.append_assoc]
        exact List.Perm.append_left _ List.perm_append_comm
      have h2 : ((x.queue ++ b) ++ (xs.map (fun x => x.queue)).flatten).Perm
          (x.queue ++ ((xs.map (fun x => x.queue)).flatten ++ b)) := by
        rw [List.append_assoc]
        exact List.Perm.append_left _ List.perm_append_comm
      exact h1.trans ((List.Perm.append_right _ hq).trans h2)
    | succ i =>
      simp only [List.getElem?_cons_succ] at h
      simp only [List.set_cons_succ, List.map_cons, List.flatten_cons, List.append_assoc]
      exact List.Perm.append_left _ (ih i p q a b h hq)

theorem enqueue_accepted (accepts : processor → List Coroutine → Bool) (p : processor)
    (range : List Coroutine) :
    ((p.enqueue accepts range).1 = true →
      (p.enqueue accepts range).2.queue = p.queue ++ range) ∧
    ((p.enqueue accepts range).1 = false → (p.enqueue accepts range).2 = p) := by
  unfold processor.enqueue
  split <;> simp

theorem schedule_loop_conserves (accepts : processor → List Coroutine → Bool)
    (range : List Coroutine) (live : Nat) :
    ∀ (todo index : Nat) (ps : List processor) (calls : List enqueue_call)
      (r : Bool) (ps' : List processor) (calls' : List enqueue_call),
      scheduler.schedule_loop accepts range live todo index ps calls = .ok (r, ps', calls') →
      (r = true → ((ps'.map (fun x => x.queue)).flatten).Perm
        ((ps.map (fun x => x.queue)).flatten ++ range)) ∧
      (r = false → ps' = ps) := by
  intro todo
  induction todo with
  | zero =>
    intro index ps calls r ps' calls' h
    simp only [scheduler.schedule_loop, Except.ok.injEq, Prod.mk.injEq] at h
    refine ⟨fun hr => ?_, fun _ => h.2.1.symm⟩
    rw [hr] at h; exact absurd h.1 (by simp)
  | succ todo ih =>
    intro index ps calls r ps' calls' h
    unfold scheduler.schedule_loop at h
    cases hget : ps[index]? with
    | none => simp [hget] at h
    | some p =>
      simp only [hget] at h
      obtain ⟨hyes, hno⟩ := enqueue_accepted accepts p range
      split at h
      · rename_i hacc
        simp only [Except.ok.injEq, Prod.mk.injEq] at h
        refine ⟨fun _ => ?_, fun hr => ?_⟩
        · rw [← h.2.1]
          have := flatten_set_perm ps index p (p.enqueue accepts range).2 [] range hget
            (by rw [hyes hacc, List.append_nil])
          simpa using this
        · rw [hr] at h; exact absurd h.1 (by simp)
      · rename_i hacc
        have hrej : (p.enqueue accepts range).1 = false := by simpa using hacc
        rw [hno hrej, set_same ps index p hget] at h
        exact ih _ _ _ _ _ _ h

/-- Every call of `schedule` that returns conserves the handles: afterwards the deques and
the global queue together hold the handles they held before and those of the range, each as
often as before. -/
theorem schedule_conserves (accepts : processor → List Coroutine → Bool) (raw : Nat)
    (s s' : scheduler) (range : List Coroutine) (calls : List enqueue_call)
    (h : s.schedule accepts raw range = .ok (s', calls)) :
    s'.handles.Perm (s.handles ++ range) := by
  unfold scheduler.schedule at h
  split at h
  · rename_i hempty
    simp only [Except.ok.injEq, Prod.mk.injEq] at h
    rw [← h.1, List.isEmpty_iff.mp hempty, List.append_nil]
  · split at h
    · rename_i starved hlast
      unfold enqueue_through at h
      cases hget : s._processors[index_of s._processors starved]? with
      | none => simp [hget] at h
      | some p =>
        simp only [hget] at h
        obtain ⟨hyes, _⟩ := enqueue_accepted accepts p range
        split at h
        · rename_i hacc
          simp only [Except.ok.injEq, Prod.mk.injEq] at h
          rw [← h.1]
          unfold scheduler.handles
          simp only []
          have := flatten_set_perm s._processors _ p (p.enqueue accepts range).2 [] range hget
            (by rw [hyes hacc, List.append_nil])
          rw [List.append_nil] at this
          exact (List.Perm.append_right _ this).trans (by
            rw [List.append_assoc, List.append_assoc]
            exact List.Perm.append_left _ List.perm_append_comm)
        · exact absurd h (by simp)
    · split at h
      · exact absurd h (by simp)
      · rename_i ps calls' hloop
        simp only [Except.ok.injEq, Prod.mk.injEq] at h
        rw [← h.1]
        unfold scheduler.handles
        simp only []
        have := (schedule_loop_conserves _ _ _ _ _ _ _ _ _ _ hloop).1 rfl
        exact (List.Perm.append_right _ this).trans (by
          rw [List.append_assoc, List.append_assoc]
          exact List.Perm.append_left _ List.perm_append_comm)
      · rename_i ps calls' hloop
        simp only [Except.ok.injEq, Prod.mk.injEq] at h
        rw [← h.1]
        unfold scheduler.handles
        simp only []
        rw [(schedule_loop_conserves _ _ _ _ _ _ _ _ _ _ hloop).2 rfl, List.append_assoc]

/-- Every call of `processor_blocked` that returns conserves the handles. -/
theorem processor_blocked_conserves (accepts : processor → List Coroutine → Bool)
    (raw fresh : Nat) (s s' : scheduler) (pc : Nat) (queue : List Coroutine)
    (calls : List enqueue_call)
    (h : s.processor_blocked accepts raw fresh pc queue = .ok (s', calls)) :
    s'.handles.Perm (s.handles ++ queue) := by
  have hsame : (s.processor_blocked_locked fresh).handles = s.handles := by
    unfold scheduler.processor_blocked_locked scheduler.handles
    simp only []
    split <;> simp [processor.fresh]
  rw [← hsame]
  exact schedule_conserves accepts raw _ s' queue calls h

theorem enqueue_through_conserves (accepts : processor → List Coroutine → Bool)
    (ps : List processor) (pc : Nat) (range : List Coroutine) (r : Bool) (ps' : List processor)
    (hacc : ∀ p range, accepts p range = true)
    (h : enqueue_through accepts ps pc range = .ok (r, ps')) :
    ((ps'.map (fun x => x.queue)).flatten).Perm
      ((ps.map (fun x => x.queue)).flatten ++ range) := by
  unfold enqueue_through at h
  cases hget : ps[index_of ps pc]? with
  | none => simp [hget] at h
  | some p =>
    simp only [hget, Except.ok.injEq, Prod.mk.injEq] at h
    rw [← h.2]
    have := flatten_set_perm ps _ p (p.enqueue accepts range).2 [] range hget
      (by simp [processor.enqueue, hacc])
    simpa using this

/-- A call of `processor_starved` that returns conserves the handles when the processor
accepts what it is offered. -/
theorem processor_starved_conserves (accepts : processor → List Coroutine → Bool)
    (quantum : Nat → Nat) (s s' : scheduler) (pc : Nat)
    (hacc : ∀ p range, accepts p range = true)
    (h : s.processor_starved accepts quantum pc = .ok s') :
    s'.handles.Perm s.handles := by
  unfold scheduler.processor_starved at h
  split at h
  · split at h
    · split at h
      · exact absurd h (by simp)
      · rename_i r ps hthrough
        simp only [Except.ok.injEq] at h
        rw [← h]
        unfold scheduler.handles
        simp only []
        have := enqueue_through_conserves accepts _ _ _ _ _ hacc hthrough
        simpa using this
    · split at h
      · exact absurd h (by simp)
      · rename_i victim hv
        have hsteal := flatten_set_perm s._processors _ victim (victim.steal quantum).2
          (victim.steal quantum).1 [] hv (by
            rw [List.append_nil]
            have := steal_conserves quantum victim
            exact List.perm_append_comm.trans (by rw [this]))
        rw [List.append_nil] at hsteal
        split at h
        · split at h
          · exact absurd h (by simp)
          · rename_i r ps hthrough
            simp only [Except.ok.injEq] at h
            rw [← h]
            unfold scheduler.handles
            simp only []
            have := enqueue_through_conserves accepts _ _ _ _ _ hacc hthrough
            exact List.Perm.append_right _ (this.trans hsteal)
        · rename_i hnone
          have hnil : (victim.steal quantum).1 = [] := by
            simpa [List.isEmpty_iff] using hnone
          simp only [Except.ok.injEq] at h
          rw [← h]
          unfold scheduler.handles
          simp only []
          rw [steal_nothing quantum victim hnil, set_same _ _ _ hv]
  · simp only [Except.ok.injEq] at h
    rw [← h]

/-! ## `processor_blocked` -/

theorem processor_blocked_locked_fields (fresh : Nat) (s : scheduler) :
    (s.processor_blocked_locked fresh)._blocked_processors = s._blocked_processors + 1 ∧
    (s.processor_blocked_locked fresh)._active_processors = s._active_processors ∧
    (s.processor_blocked_locked fresh)._starved_processors = s._starved_processors ∧
    (s.processor_blocked_locked fresh)._global_queue = s._global_queue := by
  unfold scheduler.processor_blocked_locked
  simp only []
  split <;> exact ⟨rfl, rfl, rfl, rfl⟩

theorem processor_blocked_locked_processors (fresh : Nat) (s : scheduler) :
    (s._processors.length < s._active_processors + (s._blocked_processors + 1) →
      (s.processor_blocked_locked fresh)._processors
        = s._processors ++ [processor.fresh fresh]) ∧
    (¬ s._processors.length < s._active_processors + (s._blocked_processors + 1) →
      (s.processor_blocked_locked fresh)._processors = s._processors) := by
  constructor
  · intro h
    simp [scheduler.processor_blocked_locked, h]
  · intro h
    simp [scheduler.processor_blocked_locked, h]

/-- After the locked block of `processor_blocked` there are again at least
`_active_processors + _blocked_processors` processors, if there were before. -/
theorem processor_blocked_locked_populated (fresh : Nat) (s : scheduler)
    (hinv : s.live ≤ s._processors.length) :
    (s.processor_blocked_locked fresh).live
      ≤ (s.processor_blocked_locked fresh)._processors.length := by
  obtain ⟨hb, ha, _, _⟩ := processor_blocked_locked_fields fresh s
  obtain ⟨hgrow, hkeep⟩ := processor_blocked_locked_processors fresh s
  unfold scheduler.live at hinv ⊢
  rw [hb, ha]
  by_cases h : s._processors.length < s._active_processors + (s._blocked_processors + 1)
  · rw [hgrow h, List.length_append, List.length_singleton]; omega
  · rw [hkeep h]; omega

/-- C5: `processor_blocked` raises `_blocked_processors` by one, constructs one processor
when there are fewer than `_active_processors + _blocked_processors` of them with the raised
counter and none otherwise, and passes the whole queue to `schedule`.  When the state before
the call has `_active_processors + _blocked_processors` processors or more, every return
leaves at least `_active_processors` processors that are not blocked; and the call does
return, when no processor is on record as starved or when the one that `schedule` picks
accepts the queue. -/
theorem processor_blocked_spec (accepts : processor → List Coroutine → Bool) (raw fresh : Nat)
    (s : scheduler) (pc : Nat) (queue : List Coroutine)
    (hinv : s.live ≤ s._processors.length) :
    (s.processor_blocked_locked fresh)._blocked_processors = s._blocked_processors + 1 ∧
    (s.processor_blocked_locked fresh)._active_processors = s._active_processors ∧
    (s._processors.length < s._active_processors + (s._blocked_processors + 1) →
      (s.processor_blocked_locked fresh)._processors
        = s._processors ++ [processor.fresh fresh]) ∧
    (¬ s._processors.length < s._active_processors + (s._blocked_processors + 1) →
      (s.processor_blocked_locked fresh)._processors = s._processors) ∧
    s.processor_blocked accepts raw fresh pc queue
      = (s.processor_blocked_locked fresh).schedule accepts raw queue ∧
    (∀ s' calls, s.processor_blocked accepts raw fresh pc queue = .ok (s', calls) →
      s'._blocked_processors = s._blocked_processors + 1 ∧
      s'._active_processors = s._active_processors ∧
      s'._processors.map (fun x => x.id)
        = (s.processor_blocked_locked fresh)._processors.map (fun x => x.id) ∧
      s'._active_processors ≤ s'._processors.length - s'._blocked_processors) ∧
    (s._starved_processors = [] →
      ∃ s' calls, s.processor_blocked accepts raw fresh pc queue = .ok (s', calls)) ∧
    (∀ starved p, s._starved_processors.getLast? = some starved →
      (s.processor_blocked_locked fresh)._processors[
        index_of (s.processor_blocked_locked fresh)._processors starved]? = some p →
      accepts p queue = true →
      ∃ s' calls, s.processor_blocked accepts raw fresh pc queue = .ok (s', calls)) := by
  obtain ⟨hb, ha, hst, _⟩ := processor_blocked_locked_fields fresh s
  obtain ⟨hgrow, hkeep⟩ := processor_blocked_locked_processors fresh s
  have hlen := processor_blocked_locked_populated fresh s hinv
  refine ⟨hb, ha, hgrow, hkeep, rfl, ?_, ?_, ?_⟩
  · intro s' calls hres
    obtain ⟨h1, h2, h3, _⟩ := schedule_shape accepts raw _ s' queue calls hres
    refine ⟨by rw [h2, hb], by rw [h1, ha], h3, ?_⟩
    have hl : s'._processors.length = (s.processor_blocked_locked fresh)._processors.length := by
      have := congrArg List.length h3
      simpa using this
    unfold scheduler.live at hlen
    rw [h1, h2, hl]; omega
  · intro hnone
    exact schedule_returns accepts raw _ queue (by rw [hst, hnone]) hlen
  · intro starved p hlast hp hacc
    exact schedule_returns_starved accepts raw _ queue starved p (by rw [hst, hlast]) hp hacc

theorem processor_blocked_spec_witness :
    (two_processors.live ≤ two_processors._processors.length) ∧
    (
    (two_processors.processor_blocked_locked 102)._blocked_processors =
        two_processors._blocked_processors + 1 ∧
    (two_processors.processor_blocked_locked 102)._active_processors =
        two_processors._active_processors ∧
    (two_processors._processors.length < two_processors._active_processors +
        (two_processors._blocked_processors + 1) →
      (two_processors.processor_blocked_locked 102)._processors
        = two_processors._processors ++ [processor.fresh 102]) ∧
    (¬ two_processors._processors.length < two_processors._active_processors +
        (two_processors._blocked_processors + 1) →
      (two_processors.processor_blocked_locked 102)._processors = two_processors._processors) ∧
    two_processors.processor_blocked fits_two 0 102 100 [1, 2]
      = (two_processors.processor_blocked_locked 102).schedule fits_two 0 [1, 2] ∧
    (∀ s' calls, two_processors.processor_blocked fits_two 0 102 100 [1, 2] = .ok (s', calls) →
      s'._blocked_processors = two_processors._blocked_processors + 1 ∧
      s'._active_processors = two_processors._active_processors ∧
      s'._processors.map (fun x => x.id)
        = (two_processors.processor_blocked_locked 102)._processors.map (fun x => x.id) ∧
      s'._active_processors ≤ s'._processors.length - s'._blocked_processors) ∧
    (two_processors._starved_processors = [] →
      ∃ s' calls, two_processors.processor_blocked fits_two 0 102 100 [1, 2] = .ok (s', calls)) ∧
    (∀ starved p, two_processors._starved_processors.getLast? = some starved →
      (two_processors.processor_blocked_locked 102)._processors[
        index_of (two_processors.processor_blocked_locked 102)._processors starved]? = some p →
      fits_two p [1, 2] = true →
      ∃ s' calls, two_processors.processor_blocked fits_two 0 102 100 [1, 2] = .ok (s', calls))) :=
  ⟨by decide, processor_blocked_spec fits_two 0 102 two_processors 100 [1, 2] (by decide)⟩

theorem processor_blocked_example :
    two_processors.processor_blocked fits_two 0 102 100 [1, 2] =
      .ok ({ _active_processors := 2, _blocked_processors := 1,
             _processors := [⟨100, [1, 2], false⟩, ⟨101, [1, 2], false⟩, ⟨102, [], false⟩],
             _starved_processors := [], _global_queue := [] },
        [.at_index 0 false, .at_index 1 true]) := by rfl

/-! ## `processor_unblocked` and `remove_inactive_processors` -/

/-- What the loop of `remove_inactive_processors` does when it has fuel for every processor:
counters and global queue are kept; the processors left are a front segment of the ones before;
every processor taken away was idle and stood past position `2·active + blocked`; and the loop
was left either at that bound or at a last processor that did not stop. -/
theorem remove_inactive_loop_spec :
    ∀ (fuel : Nat) (s : scheduler), s._processors.length ≤ fuel →
      (scheduler.remove_inactive_loop fuel s)._active_processors = s._active_processors ∧
      (scheduler.remove_inactive_loop fuel s)._blocked_processors = s._blocked_processors ∧
      (scheduler.remove_inactive_loop fuel s)._global_queue = s._global_queue ∧
      (∃ k, k ≤ s._processors.length ∧
        (scheduler.remove_inactive_loop fuel s)._processors = s._processors.take k ∧
        (∀ p ∈ s._processors.drop k, p.stop_if_idle = true) ∧
        min s._processors.length (s._active_processors * 2 + s._blocked_processors) ≤ k) ∧
      ((scheduler.remove_inactive_loop fuel s)._processors.length
          ≤ s._active_processors * 2 + s._blocked_processors ∨
        ∃ back, (scheduler.remove_inactive_loop fuel s)._processors.getLast? = some back ∧
          back.stop_if_idle = false) := by
  intro fuel
  induction fuel with
  | zero =>
    intro s hlen
    have hnil : s._processors = [] := List.length_eq_zero.mp (Nat.le_zero.mp hlen)
    simp [scheduler.remove_inactive_loop, hnil]
  | succ fuel ih =>
    intro s hlen
    unfold scheduler.remove_inactive_loop
    by_cases hgt : s._processors.length > s._active_processors * 2 + s._blocked_processors
    · simp only [hgt, if_true]
      cases hlast : s._processors.getLast? with
      | none =>
        have hnil : s._processors = [] := List.getLast?_eq_none_iff.mp hlast
        simp [hnil] at hgt
      | some back =>
        obtain ⟨_, hsplit⟩ := nonempty_of_last _ _ hlast
        have hlen' : s._processors.length = s._processors.dropLast.length + 1 := by
          conv_lhs => rw [← hsplit]
          simp
        by_cases hidle : back.stop_if_idle = true
        · simp only [hidle, if_true]
          obtain ⟨ha, hb, hg, ⟨k, hk, htake, hrem, hmin⟩, hexit⟩ := ih
            { s with
              _starved_processors := s._starved_processors.filter (fun pc => pc != back.id),
              _processors := s._processors.dropLast } (by simp only []; omega)
          simp only [] at ha hb hg hk htake hrem hmin hexit
          refine ⟨ha, hb, hg, ⟨k, by omega, ?_, ?_, by omega⟩, hexit⟩
          · rw [htake]
            conv_rhs => rw [← hsplit]
            rw [List.take_append_of_le_length hk]
          · intro p hp
            rw [← hsplit, List.drop_append_of_le_length hk, List.mem_append] at hp
            rcases hp with hp | hp
            · exact hrem p hp
            · rw [List.mem_singleton] at hp
              rw [hp]; exact hidle
        · have hno : back.stop_if_idle = false := by simpa using hidle
          simp only [hno, Bool.false_eq_true, if_false]
          exact ⟨trivial, trivial, trivial, ⟨s._processors.length, Nat.le_refl _, by simp,
            by simp, Nat.min_le_left _ _⟩, Or.inr ⟨back, hlast, hno⟩⟩
    · simp only [hgt, if_false]
      exact ⟨trivial, trivial, trivial, ⟨s._processors.length, Nat.le_refl _, by simp,
        by simp, Nat.min_le_left _ _⟩, Or.inl (by omega)⟩

theorem mem_of_last {α : Type} (l : List α) (a : α) (h : l.getLast? = some a) : a ∈ l := by
  obtain ⟨ys, hys⟩ := List.getLast?_eq_some_iff.mp h
  rw [hys]; simp

/-- C6: with `_blocked_processors > 0`, `processor_unblocked` returns with the counter one
lower.  The processors left are a front segment of the ones before, so processors go from the
back only; every one that went was idle and stood past position `2·active + blocked`, so the
collection does not shrink below the smaller of its size and that bound; the loop ends at the
bound or at a last processor that refuses to stop, hence at the bound when all processors are
idle; and when the last processor refuses at once, none is removed. -/
theorem processor_unblocked_spec (s : scheduler) (pc : Nat)
    (hb : 0 < s._blocked_processors) :
    ∃ s', s.processor_unblocked pc = .ok s' ∧
      s'._blocked_processors + 1 = s._blocked_processors ∧
      s'._active_processors = s._active_processors ∧
      (∃ k, k ≤ s._processors.length ∧ s'._processors = s._processors.take k ∧
        (∀ p ∈ s._processors.drop k, p.stop_if_idle = true) ∧
        min s._processors.length (s._active_processors * 2 + s'._blocked_processors) ≤ k) ∧
      min s._processors.length (s._active_processors * 2 + s'._blocked_processors)
        ≤ s'._processors.length ∧
      (s'._processors.length ≤ s._active_processors * 2 + s'._blocked_processors ∨
        ∃ back, s'._processors.getLast? = some back ∧ back.stop_if_idle = false) ∧
      ((∀ p ∈ s._processors, p.stop_if_idle = true) →
        s'._processors.length ≤ s._active_processors * 2 + s'._blocked_processors) ∧
      (∀ back, s._processors.getLast? = some back → back.stop_if_idle = false →
        s'._processors = s._processors) := by
  obtain ⟨ha, hb', _, ⟨k, hk, htake, hrem, hmin⟩, hexit⟩ := remove_inactive_loop_spec
    s._processors.length { s with _blocked_processors := s._blocked_processors - 1 }
    (Nat.le_refl _)
  simp only [] at ha hb' hk htake hrem hmin hexit
  refine ⟨_, by simp [scheduler.processor_unblocked, hb, scheduler.remove_inactive_processors],
    ?_, ha, ?_, ?_, ?_, ?_, ?_⟩
  · rw [hb']; omega
  · exact ⟨k, hk, htake, hrem, by rw [hb']; exact hmin⟩
  · rw [hb', htake, List.length_take]; omega
  · rw [hb']; exact hexit
  · intro hall
    rw [hb']
    rcases hexit with h | ⟨back, hlast, hno⟩
    · exact h
    · have hmem : back ∈ s._processors := by
        have := mem_of_last _ _ hlast
        rw [htake] at this
        exact List.mem_of_mem_take this
      rw [hall back hmem] at hno
      exact absurd hno (by simp)
  · intro back hlast hno
    by_cases hkl : k = s._processors.length
    · rw [htake, hkl, List.take_length]
    · obtain ⟨ys, hys⟩ := List.getLast?_eq_some_iff.mp hlast
      have hlen : s._processors.length = ys.length + 1 := by rw [hys]; simp
      have hmem : back ∈ s._processors.drop k := by
        rw [hys, List.drop_append_of_le_length (by omega)]
        simp
      rw [hrem back hmem] at hno
      exact absurd hno (by simp)

theorem processor_unblocked_spec_witness :
    (0 < four_processors._blocked_processors) ∧
    (
    ∃ s', four_processors.processor_unblocked 100 = .ok s' ∧
      s'._blocked_processors + 1 = four_processors._blocked_processors ∧
      s'._active_processors = four_processors._active_processors ∧
      (∃ k, k ≤ four_processors._processors.length ∧ s'._processors =
          four_processors._processors.take k ∧
        (∀ p ∈ four_processors._processors.drop k, p.stop_if_idle = true) ∧
        min four_processors._processors.length (four_processors._active_processors * 2 +
            s'._blocked_processors) ≤ k) ∧
      min four_processors._processors.length (four_processors._active_processors * 2 +
          s'._blocked_processors)
        ≤ s'._processors.length ∧
      (s'._processors.length ≤ four_processors._active_processors * 2 + s'._blocked_processors ∨
        ∃ back, s'._processors.getLast? = some back ∧ back.stop_if_idle = false) ∧
      ((∀ p ∈ four_processors._processors, p.stop_if_idle = true) →
        s'._processors.length ≤ four_processors._active_processors * 2 + s'._blocked_processors) ∧
      (∀ back, four_processors._processors.getLast? = some back → back.stop_if_idle = false →
        s'._processors = four_processors._processors)) :=
  ⟨by decide, processor_unblocked_spec four_processors 100 (by decide)⟩

theorem processor_unblocked_example :
    four_processors.processor_unblocked 100 =
      .ok { _active_processors := 1, _blocked_processors := 0,
            _processors := [⟨100, [1], false⟩, ⟨101, [], false⟩],
            _starved_processors := [101], _global_queue := [] } := by rfl

theorem processor_unblocked_example_assert :
    two_processors.processor_unblocked 100 = .error .assertion := by rfl

/-! ## Waiting on a condition variable -/

/-- The loop returns after `n` turns when the predicate is false in the first `n` states and
true in the next, given fuel for `n + 1` evaluations. -/
theorem wait_pred_returns {W : Type} (pred : W → Bool) (unlock park lock : W → W) :
    ∀ (n fuel : Nat) (w : W × List wait_event), n < fuel →
      pred ((fun x => lock (park (unlock x)))^[n] w.1) = true →
      (∀ i, i < n → pred ((fun x => lock (park (unlock x)))^[i] w.1) = false) →
      condition_variable.wait_pred pred unlock park lock fuel w =
        some ((fun x => lock (park (unlock x)))^[n] w.1,
          w.2 ++ (List.replicate n waiting_turn).flatten ++ [.pred true]) := by
  intro n
  induction n with
  | zero =>
    intro fuel w hfuel htrue _
    cases fuel with
    | zero => exact absurd hfuel (Nat.lt_irrefl 0)
    | succ fuel =>
      simp only [Function.iterate_zero, id_eq] at htrue
      simp [condition_variable.wait_pred, htrue]
  | succ n ih =>
    intro fuel w hfuel htrue hfalse
    cases fuel with
    | zero => exact absurd hfuel (Nat.not_lt_zero _)
    | succ fuel =>
      have h0 : pred w.1 = false := hfalse 0 (Nat.succ_pos n)
      have hrec := ih fuel
        (condition_variable.wait unlock park lock (w.1, w.2 ++ [.pred false]))
        (Nat.lt_of_succ_lt_succ hfuel)
        (by simpa [condition_variable.wait, Function.iterate_succ_apply] using htrue)
        (by
          intro i hi
          have := hfalse (i + 1) (Nat.succ_lt_succ hi)
          simpa [condition_variable.wait, Function.iterate_succ_apply] using this)
      unfold condition_variable.wait_pred
      simp only [h0, Bool.false_eq_true, if_false]
      rw [hrec]
      simp [condition_variable.wait, Function.iterate_succ_apply, List.replicate_succ,
        waiting_turn]

/-- Whenever the loop returns, it has made some number `n` of turns, the predicate was false
before each of them and is true in the state that is returned. -/
theorem wait_pred_sound {W : Type} (pred : W → Bool) (unlock park lock : W → W) :
    ∀ (fuel : Nat) (w res : W × List wait_event),
      condition_variable.wait_pred pred unlock park lock fuel w = some res →
      pred res.1 = true ∧
      ∃ n, n < fuel ∧ res.1 = (fun x => lock (park (unlock x)))^[n] w.1 ∧
        (∀ i, i < n → pred ((fun x => lock (park (unlock x)))^[i] w.1) = false) ∧
        res.2 = w.2 ++ (List.replicate n waiting_turn).flatten ++ [.pred true] := by
  intro fuel
  induction fuel with
  | zero => intro w res h; simp [condition_variable.wait_pred] at h
  | succ fuel ih =>
    intro w res h
    unfold condition_variable.wait_pred at h
    by_cases hp : pred w.1 = true
    · simp only [hp, if_true, Option.some.injEq] at h
      subst h
      exact ⟨hp, 0, Nat.succ_pos _, rfl, fun i hi => absurd hi (Nat.not_lt_zero i), by simp⟩
    · have hp' : pred w.1 = false := by simpa using hp
      simp only [hp', Bool.false_eq_true, if_false] at h
      obtain ⟨htrue, n, hn, hstate, hfalse, htrace⟩ := ih _ res h
      refine ⟨htrue, n + 1, Nat.succ_lt_succ hn, ?_, ?_, ?_⟩
      · simpa [condition_variable.wait, Function.iterate_succ_apply] using hstate
      · intro i hi
        cases i with
        | zero => exact hp'
        | succ i =>
          have := hfalse i (Nat.lt_of_succ_lt_succ hi)
          simpa [condition_variable.wait, Function.iterate_succ_apply] using this
      · rw [htrace]
        simp [condition_variable.wait, List.replicate_succ, waiting_turn]

/-- C9: `wait(lock, pred)` returns only right after an evaluation of `pred()` that gave
true, in a state in which `pred()` holds; before that, each evaluation that gave false was
followed by exactly one unlock, one park and one lock, in this order; the call does return as
soon as the predicate holds at a wake-up, after that many turns; and when the predicate holds
on entry it returns at once, with no unlock and no park. -/
theorem wait_pred_spec {W : Type} (pred : W → Bool) (unlock park lock : W → W) (w : W) :
    (∀ fuel res,
      condition_variable.wait_pred pred unlock park lock fuel (w, []) = some res →
      pred res.1 = true ∧
      ∃ n, res.1 = (fun x => lock (park (unlock x)))^[n] w ∧
        (∀ i, i < n → pred ((fun x => lock (park (unlock x)))^[i] w) = false) ∧
        res.2 = (List.replicate n waiting_turn).flatten ++ [.pred true]) ∧
    (∀ n, pred ((fun x => lock (park (unlock x)))^[n] w) = true →
      (∀ i, i < n → pred ((fun x => lock (park (unlock x)))^[i] w) = false) →
      ∀ fuel, n < fuel →
        condition_variable.wait_pred pred unlock park lock fuel (w, []) =
          some ((fun x => lock (park (unlock x)))^[n] w,
            (List.replicate n waiting_turn).flatten ++ [.pred true])) ∧
    (pred w = true → ∀ fuel,
      condition_variable.wait_pred pred unlock park lock (fuel + 1) (w, [])
        = some (w, [.pred true])) ∧
    (∀ x trace, condition_variable.wait unlock park lock (x, trace)
      = (lock (park (unlock x)), trace ++ [.unlock, .park, .lock])) := by
  refine ⟨?_, ?_, ?_, fun _ _ => rfl⟩
  · intro fuel res h
    obtain ⟨htrue, n, _, hstate, hfalse, htrace⟩ :=
      wait_pred_sound pred unlock park lock fuel (w, []) res h
    exact ⟨htrue, n, hstate, hfalse, by simpa using htrace⟩
  · intro n htrue hfalse fuel hfuel
    have := wait_pred_returns pred unlock park lock n fuel (w, []) hfuel htrue hfalse
    simpa using this
  · intro htrue fuel
    have := wait_pred_returns pred unlock park lock 0 (fuel + 1) (w, []) (Nat.succ_pos _)
      (by simpa using htrue) (fun i hi => absurd hi (Nat.not_lt_zero i))
    simpa using this

/-- A waiter on a counter that another coroutine raises by one between two wake-ups: the
predicate `2 ≤ counter` holds at the second wake-up. -/
theorem wait_pred_spec_witness :
    ((fun c : Nat => decide (2 ≤ c)) ((fun x => id ((fun c => c + 1) (id x)))^[2] 0) = true ∧
      (∀ i, i < 2 →
        (fun c : Nat => decide (2 ≤ c)) ((fun x => id ((fun c => c + 1) (id x)))^[i] 0)
          = false) ∧ 2 < 5) ∧
    condition_variable.wait_pred (fun c : Nat => decide (2 ≤ c)) id (fun c => c + 1) id 5 (0, [])
      = some ((fun x => id ((fun c => c + 1) (id x)))^[2] 0,
          (List.replicate 2 waiting_turn).flatten ++ [.pred true]) :=
  ⟨⟨by decide, by decide, by decide⟩,
    (wait_pred_spec (fun c : Nat => decide (2 ≤ c)) id (fun c => c + 1) id 0).2.1 2
      (by decide) (by decide) 5 (by decide)⟩

theorem wait_pred_example :
    condition_variable.wait_pred (fun c : Nat => decide (2 ≤ c)) id (fun c => c + 1) id 5 (0, [])
      = some (2, [.pred false, .unlock, .park, .lock, .pred false, .unlock, .park, .lock,
          .pred true]) := by rfl

theorem wait_pred_example_out_of_fuel :
    condition_variable.wait_pred (fun c : Nat => decide (2 ≤ c)) id (fun c => c + 1) id 2 (0, [])
      = none := by rfl

/-! ## The monitor -/

theorem wait_each_appends : ∀ (coros : List Coroutine) (m : monitor),
    m.wait_each coros = .ok { _waiting := m._waiting ++ coros } := by
  intro coros
  induction coros with
  | nil => intro m; simp [monitor.wait_each]
  | cons c cs ih =>
    intro m
    simp [monitor.wait_each, monitor.wait, thread_safe_queue.push, ih]

/-- C8: after the coroutines `coros` have parked in a new monitor by successive calls of
`wait()`, `wake_all()` makes one call of `enqueue` on the current context, whose batch is
`coros` in the order of parking and goes behind its ready queue, and leaves the wait set
empty; a coroutine that parks afterwards is alone in the wait set and is the whole batch of
the next `wake_all()`. -/
theorem wake_all_fifo (coros : List Coroutine) (ctx : context) (late : Coroutine) :
    ∃ parked, monitor.new.wait_each coros = .ok parked ∧ parked._waiting = coros ∧
      parked.wake_all (some ctx)
        = .ok (monitor.new, { queue := ctx.queue ++ coros }, [coros]) ∧
      ∃ again, monitor.new.wait (some late) = .ok again ∧ again._waiting = [late] ∧
        ∀ next : context, again.wake_all (some next)
          = .ok (monitor.new, { queue := next.queue ++ [late] }, [[late]]) := by
  refine ⟨_, wait_each_appends coros monitor.new, by simp [monitor.new], ?_, ?_⟩
  · simp [monitor.wake_all, monitor.new, context.enqueue, thread_safe_queue.get_all]
  · exact ⟨_, rfl, by simp [monitor.new, thread_safe_queue.push], fun next => by
      simp [monitor.wake_all, monitor.new, context.enqueue, thread_safe_queue.get_all,
        thread_safe_queue.push]⟩

theorem wake_all_example :
    (monitor.new.wait_each [4, 9, 2]).bind (fun m => m.wake_all (some ⟨[1]⟩))
      = .ok (monitor.new, ⟨[1, 4, 9, 2]⟩, [[4, 9, 2]]) := by rfl

/-! ## The registry of coroutines -/

theorem find_ptr_split (l : List Coroutine) (c : Coroutine) (h : c ∈ l) :
    ∃ before after, l = before ++ c :: after ∧ c ∉ before ∧
      find_ptr l c = before.length ∧ l.eraseIdx (find_ptr l c) = before ++ after := by
  induction l with
  | nil => simp at h
  | cons x xs ih =>
    by_cases hx : x = c
    · refine ⟨[], xs, by simp [hx], by simp, ?_, ?_⟩
      · simp [find_ptr, List.findIdx_cons, hx]
      · simp [find_ptr, List.findIdx_cons, hx]
    · have hmem : c ∈ xs := by
        rcases List.mem_cons.mp h with h | h
        · exact absurd h.symm hx
        · exact h
      obtain ⟨b, a, hsplit, hnot, hidx, herase⟩ := ih hmem
      have hbeq : (x == c) = false := beq_eq_false_iff_ne.mpr hx
      have hfind : find_ptr (x :: xs) c = find_ptr xs c + 1 := by
        simp only [find_ptr, List.findIdx_cons, hbeq, cond_false]
      refine ⟨x :: b, a, by simp [hsplit], ?_, ?_, ?_⟩
      · simp only [List.mem_cons, not_or]
        exact ⟨fun h => hx h.symm, hnot⟩
      · rw [hfind, hidx]; simp
      · rw [hfind, List.eraseIdx_cons_succ, herase]; simp

/-- C7: `coroutine_finished(coro)` on a registry that holds `coro` takes out its first
occurrence, the only one when the registry has no duplicates, keeps all other coroutines in
their order, and calls `notify_all` exactly when the registry is empty afterwards; on a
registry without `coro` the `assert` fails, with the state as it was.  `wait()` returns only
in a state whose registry is empty, returns as soon as the registry is empty at a wake-up, and
returns at once when it is empty on entry. -/
theorem coroutine_finished_spec (s : scheduler) (coro : Coroutine)
    (park : scheduler → scheduler) :
    (coro ∈ s._coroutines →
      ∃ before after, s._coroutines = before ++ coro :: after ∧ coro ∉ before ∧
        (before ++ after).length + 1 = s._coroutines.length ∧
        (s._coroutines.Nodup → coro ∉ before ++ after) ∧
        ∃ notified, s.coroutine_finished coro
            = .ok ({ s with _coroutines := before ++ after }, notified) ∧
          (notified = true ↔ before ++ after = [])) ∧
    (coro ∉ s._coroutines → s.coroutine_finished coro = .error (.assertion, s)) ∧
    (∀ fuel res, s.wait park fuel = some res → res.1._coroutines = []) ∧
    (∀ n, (park^[n] s)._coroutines = [] → (∀ i, i < n → (park^[i] s)._coroutines ≠ []) →
      ∀ fuel, n < fuel → ∃ trace, s.wait park fuel = some (park^[n] s, trace)) ∧
    (s._coroutines = [] → ∀ fuel, s.wait park (fuel + 1) = some (s, [.pred true])) := by
  refine ⟨?_, ?_, ?_, ?_, ?_⟩
  · intro hmem
    obtain ⟨before, after, hsplit, hnot, hidx, herase⟩ := find_ptr_split _ _ hmem
    refine ⟨before, after, hsplit, hnot, by rw [hsplit]; simp; omega, ?_, ?_⟩
    · intro hnodup
      rw [hsplit] at hnodup
      have h1 := (List.nodup_append.mp hnodup).2.2
      have h2 := (List.nodup_cons.mp (List.nodup_append.mp hnodup).2.1).1
      intro hin
      rcases List.mem_append.mp hin with hin | hin
      · exact hnot hin
      · exact h2 hin
    · have hne : find_ptr s._coroutines coro ≠ s._coroutines.length := by
        rw [hidx, hsplit]; simp
      refine ⟨(before ++ after).isEmpty, ?_, ?_⟩
      · simp [scheduler.coroutine_finished, hne, herase]
      · simp [List.isEmpty_iff]
  · intro hnot
    have : find_ptr s._coroutines coro = s._coroutines.length := by
      unfold find_ptr
      rw [List.findIdx_eq_length]
      intro x hx
      simp only [beq_eq_false_iff_ne, ne_eq]
      intro hxc; exact hnot (hxc ▸ hx)
    simp [scheduler.coroutine_finished, this]
  · intro fuel res h
    have := (wait_pred_sound (fun s : scheduler => s._coroutines.isEmpty) id park id
      fuel (s, []) res h).1
    simpa [List.isEmpty_iff] using this
  · intro n hempty hbefore fuel hfuel
    have hiter : ∀ k, (fun x => id (park (id x)))^[k] s = park^[k] s := fun k => rfl
    exact ⟨_, by
      have := wait_pred_returns (fun s : scheduler => s._coroutines.isEmpty) id park id
        n fuel (s, []) hfuel (by simp [hiter, hempty])
        (by intro i hi; simpa [hiter, List.isEmpty_iff] using hbefore i hi)
      simpa [hiter, scheduler.wait] using this⟩
  · intro hempty fuel
    simp [scheduler.wait, condition_variable.wait_pred, hempty]

theorem coroutine_finished_example :
    three_registered.coroutine_finished 8
      = .ok ({ three_registered with _coroutines := [7, 9] }, false) := by rfl

theorem coroutine_finished_example_last :
    ({ three_registered with _coroutines := [8] } : scheduler).coroutine_finished 8
      = .ok ({ three_registered with _coroutines := [] }, true) := by rfl

theorem coroutine_finished_example_assert :
    three_registered.coroutine_finished 5 = .error (.assertion, three_registered) := by rfl

/-! ## Starved processors are processors -/

/-- A call of `processor_starved(pc)` that returns keeps the two counters and the addresses
of the processors; `_starved_processors` is as before or has `pc` as a new last entry. -/
theorem processor_starved_shape (accepts : processor → List Coroutine → Bool)
    (quantum : Nat → Nat) (s s' : scheduler) (pc : Nat)
    (h : s.processor_starved accepts quantum pc = .ok s') :
    s'._active_processors = s._active_processors ∧
    s'._blocked_processors = s._blocked_processors ∧
    s'._processors.map (fun x => x.id) = s._processors.map (fun x => x.id) ∧
    (s'._starved_processors = s._starved_processors ∨
      s'._starved_processors = s._starved_processors ++ [pc]) := by
  unfold scheduler.processor_starved at h
  split at h
  · split at h
    · split at h
      · exact absurd h (by simp)
      · rename_i r ps hthrough
        simp only [Except.ok.injEq] at h
        rw [← h]
        exact ⟨rfl, rfl, enqueue_through_ids _ _ _ _ _ _ hthrough, Or.inl rfl⟩
    · split at h
      · exact absurd h (by simp)
      · rename_i victim hv
        have hset := map_id_set s._processors _ victim (victim.steal quantum).2 hv rfl
        split at h
        · split at h
          · exact absurd h (by simp)
          · rename_i r ps hthrough
            simp only [Except.ok.injEq] at h
            rw [← h]
            exact ⟨rfl, rfl, (enqueue_through_ids _ _ _ _ _ _ hthrough).trans hset,
              Or.inl rfl⟩
        · simp only [Except.ok.injEq] at h
          rw [← h]
          exact ⟨rfl, rfl, hset, Or.inr rfl⟩
  · simp only [Except.ok.injEq] at h
    rw [← h]
    exact ⟨rfl, rfl, rfl, Or.inl rfl⟩

/-- The loop of `remove_inactive_processors` adds nothing to `_starved_processors`, and the
address of no processor that it pops stays in it. -/
theorem remove_inactive_loop_erases :
    ∀ (fuel : Nat) (s : scheduler), s._processors.length ≤ fuel →
      (∀ x ∈ (scheduler.remove_inactive_loop fuel s)._starved_processors,
        x ∈ s._starved_processors) ∧
      (∀ p ∈ s._processors.drop (scheduler.remove_inactive_loop fuel s)._processors.length,
        p.id ∉ (scheduler.remove_inactive_loop fuel s)._starved_processors) := by
  intro fuel
  induction fuel with
  | zero =>
    intro s hlen
    have hnil : s._processors = [] := List.length_eq_zero.mp (Nat.le_zero.mp hlen)
    simp [scheduler.remove_inactive_loop, hnil]
  | succ fuel ih =>
    intro s hlen
    unfold scheduler.remove_inactive_loop
    by_cases hgt : s._processors.length > s._active_processors * 2 + s._blocked_processors
    · simp only [hgt, if_true]
      cases hlast : s._processors.getLast? with
      | none => simp
      | some back =>
        obtain ⟨_, hsplit⟩ := nonempty_of_last _ _ hlast
        have hlen' : s._processors.length = s._processors.dropLast.length + 1 := by
          conv_lhs => rw [← hsplit]
          simp
        by_cases hidle : back.stop_if_idle = true
        · simp only [hidle, if_true]
          have hfuel : s._processors.dropLast.length ≤ fuel := by omega
          obtain ⟨hsub, hgone⟩ := ih
            { s with
              _starved_processors := s._starved_processors.filter (fun pc => pc != back.id),
              _processors := s._processors.dropLast } hfuel
          obtain ⟨_, _, _, ⟨k, hk, htake, _, _⟩, _⟩ := remove_inactive_loop_spec fuel
            { s with
              _starved_processors := s._starved_processors.filter (fun pc => pc != back.id),
              _processors := s._processors.dropLast } hfuel
          simp only [] at hsub hgone hk htake
          have hklen : (scheduler.remove_inactive_loop fuel
              { s with
                _starved_processors := s._starved_processors.filter (fun pc => pc != back.id),
                _processors := s._processors.dropLast })._processors.length = k := by
            rw [htake, List.length_take]; omega
          refine ⟨fun x hx => (List.mem_filter.mp (hsub x hx)).1, ?_⟩
          intro p hp
          rw [hklen] at hp hgone
          rw [← hsplit, List.drop_append_of_le_length hk, List.mem_append] at hp
          rcases hp with hp | hp
          · exact hgone p hp
          · rw [List.mem_singleton] at hp
            intro hin
            have := (List.mem_filter.mp (hsub _ hin)).2
            simp [hp] at this
        · have hno : back.stop_if_idle = false := by simpa using hidle
          simp [hno]
    · simp [hgt]

/-- The loop of `remove_inactive_processors` keeps every entry of `_starved_processors` the
address of a processor. -/
theorem remove_inactive_loop_keeps :
    ∀ (fuel : Nat) (s : scheduler),
      (∀ x ∈ s._starved_processors, x ∈ s._processors.map (fun p => p.id)) →
      ∀ x ∈ (scheduler.remove_inactive_loop fuel s)._starved_processors,
        x ∈ (scheduler.remove_inactive_loop fuel s)._processors.map (fun p => p.id) := by
  intro fuel
  induction fuel with
  | zero => intro s h; simpa [scheduler.remove_inactive_loop] using h
  | succ fuel ih =>
    intro s h
    unfold scheduler.remove_inactive_loop
    split
    · split
      · exact h
      · rename_i back hlast
        obtain ⟨_, hsplit⟩ := nonempty_of_last _ _ hlast
        split
        · apply ih
          intro x hx
          simp only [] at hx ⊢
          obtain ⟨hx1, hx2⟩ := List.mem_filter.mp hx
          have hin := h x hx1
          rw [← hsplit, List.map_append, List.mem_append] at hin
          rcases hin with hin | hin
          · exact hin
          · simp at hin
            simp [hin] at hx2
        · exact h
    · exact h

theorem schedule_loop_never_dangles (accepts : processor → List Coroutine → Bool)
    (range : List Coroutine) (live : Nat) :
    ∀ (todo index : Nat) (ps : List processor) (calls : List enqueue_call),
      scheduler.schedule_loop accepts range live todo index ps calls ≠ .error .dangling := by
  intro todo
  induction todo with
  | zero => intro index ps calls; simp [scheduler.schedule_loop]
  | succ todo ih =>
    intro index ps calls
    unfold scheduler.schedule_loop
    split
    · simp
    · split
      · simp
      · exact ih _ _ _

theorem lookup_of_mem (ps : List processor) (pc : Nat)
    (h : pc ∈ ps.map (fun p => p.id)) : ∃ p, ps[index_of ps pc]? = some p := by
  obtain ⟨p, hp, hid⟩ := List.mem_map.mp h
  have hlt : index_of ps pc < ps.length :=
    List.findIdx_lt_length.mpr ⟨p, hp, by simp [hid]⟩
  exact ⟨_, List.getElem?_eq_getElem hlt⟩

/-- When every entry of `_starved_processors` is the address of a processor, `schedule`
dereferences no pointer to a processor that is gone. -/
theorem schedule_never_dangles (accepts : processor → List Coroutine → Bool) (raw : Nat)
    (s : scheduler) (range : List Coroutine)
    (hinv : ∀ x ∈ s._starved_processors, x ∈ s._processors.map (fun p => p.id)) :
    s.schedule accepts raw range ≠ .error .dangling := by
  unfold scheduler.schedule
  split
  · simp
  · split
    · rename_i starved hlast
      obtain ⟨p, hp⟩ := lookup_of_mem _ _ (hinv starved (mem_of_last _ _ hlast))
      simp only [enqueue_through, hp]
      split <;> simp
    · have := schedule_loop_never_dangles accepts range
        (s._active_processors + s._blocked_processors)
        (s._active_processors + s._blocked_processors) (s.random_index raw) s._processors []
      split
      · rename_i f hf
        intro hd
        simp only [Except.error.injEq] at hd
        rw [hd] at hf
        exact this hf
      · simp
      · simp

/-- In every state that a scheduler gets into, each entry of `_starved_processors` is the
address of a processor in `_processors`. -/
theorem reachable_starved (s : scheduler) (h : reachable s) :
    ∀ x ∈ s._starved_processors, x ∈ s._processors.map (fun p => p.id) := by
  induction h with
  | construct address n s hnew =>
    unfold scheduler.new at hnew
    split at hnew
    · simp only [Except.ok.injEq] at hnew
      rw [← hnew]; simp
    · exact absurd hnew (by simp)
  | schedule accepts raw range s s' calls _ hstep ih =>
    obtain ⟨_, _, hids, hst⟩ := schedule_shape accepts raw s s' range calls hstep
    intro x hx
    rw [hids]
    rcases hst with hst | hst
    · rw [hst] at hx; exact ih x hx
    · rw [hst] at hx; exact ih x (List.mem_of_mem_dropLast hx)
  | processor_starved accepts quantum pc s s' _ hpc hstep ih =>
    obtain ⟨_, _, hids, hst⟩ := processor_starved_shape accepts quantum s s' pc hstep
    intro x hx
    rw [hids]
    rcases hst with hst | hst
    · rw [hst] at hx; exact ih x hx
    · rw [hst, List.mem_append] at hx
      rcases hx with hx | hx
      · exact ih x hx
      · rw [List.mem_singleton] at hx
        rw [hx]; exact hpc
  | processor_blocked accepts raw fresh pc queue s s' calls _ hstep ih =>
    obtain ⟨_, _, hids, hst⟩ := schedule_shape accepts raw _ s' queue calls hstep
    obtain ⟨_, _, hsame, _⟩ := processor_blocked_locked_fields fresh s
    have hsub : ∀ x ∈ s._processors.map (fun p => p.id),
        x ∈ (s.processor_blocked_locked fresh)._processors.map (fun p => p.id) := by
      intro x hx
      unfold scheduler.processor_blocked_locked
      simp only []
      split
      · simp only [List.map_append, List.mem_append]
        exact Or.inl hx
      · exact hx
    intro x hx
    rw [hids]
    rcases hst with hst | hst
    · rw [hst, hsame] at hx; exact hsub x (ih x hx)
    · rw [hst, hsame] at hx; exact hsub x (ih x (List.mem_of_mem_dropLast hx))
  | processor_unblocked pc s s' _ hstep ih =>
    unfold scheduler.processor_unblocked at hstep
    split at hstep
    · simp only [Except.ok.injEq] at hstep
      rw [← hstep]
      exact remove_inactive_loop_keeps _ _ ih
    · exact absurd hstep (by simp)
  | run s ps _ hids ih =>
    intro x hx
    simp only [] at hx ⊢
    rw [hids]; exact ih x hx

/-- C10: in every state that a scheduler gets into from its construction by `schedule`,
`processor_starved` for one of its processors, `processor_blocked` and `processor_unblocked`,
each entry of `_starved_processors` is the address of a processor in `_processors`, so
`schedule` hands no range to a processor that is gone; and `processor_unblocked` adds nothing
to `_starved_processors` and leaves in it the address of no processor that it removes. -/
theorem starved_are_processors (s : scheduler) (h : reachable s) :
    (∀ pc ∈ s._starved_processors, ∃ p ∈ s._processors, p.id = pc) ∧
    (∀ (accepts : processor → List Coroutine → Bool) (raw : Nat) (range : List Coroutine),
      s.schedule accepts raw range ≠ .error .dangling) ∧
    (∀ pc s', s.processor_unblocked pc = .ok s' →
      (∀ x ∈ s'._starved_processors, x ∈ s._starved_processors) ∧
      (∀ p ∈ s._processors.drop s'._processors.length, p.id ∉ s'._starved_processors)) := by
  have hinv := reachable_starved s h
  refine ⟨?_, ?_, ?_⟩
  · intro pc hpc
    obtain ⟨p, hp, hid⟩ := List.mem_map.mp (hinv pc hpc)
    exact ⟨p, hp, hid⟩
  · intro accepts raw range
    exact schedule_never_dangles accepts raw s range hinv
  · intro pc s' hstep
    unfold scheduler.processor_unblocked at hstep
    split at hstep
    · simp only [Except.ok.injEq] at hstep
      rw [← hstep]
      exact remove_inactive_loop_erases _ _ (Nat.le_refl _)
    · exact absurd hstep (by simp)

theorem starved_are_processors_witness :
    reachable lone_starved ∧
    (
    (∀ pc ∈ lone_starved._starved_processors, ∃ p ∈ lone_starved._processors, p.id = pc) ∧
    (∀ (accepts : processor → List Coroutine → Bool) (raw : Nat) (range : List Coroutine),
      lone_starved.schedule accepts raw range ≠ .error .dangling) ∧
    (∀ pc s', lone_starved.processor_unblocked pc = .ok s' →
      (∀ x ∈ s'._starved_processors, x ∈ lone_starved._starved_processors) ∧
      (∀ p ∈ lone_starved._processors.drop s'._processors.length, p.id ∉ s'._starved_processors)))
          :=
  ⟨lone_starved_reachable, starved_are_processors lone_starved lone_starved_reachable⟩

/-! ## Enough processors -/

theorem length_of_ids (ps qs : List processor)
    (h : ps.map (fun x => x.id) = qs.map (fun x => x.id)) : ps.length = qs.length := by
  have := congrArg List.length h
  simpa using this

/-- In every state that a scheduler gets into, `_active_processors` is positive and there are
at least `_active_processors + _blocked_processors` processors. -/
theorem reachable_populated (s : scheduler) (h : reachable s) :
    0 < s._active_processors ∧ s.live ≤ s._processors.length := by
  induction h with
  | construct address n s hnew =>
    unfold scheduler.new at hnew
    split at hnew
    · rename_i hpos
      simp only [Except.ok.injEq] at hnew
      rw [← hnew]
      exact ⟨hpos, by simp [scheduler.live]⟩
    · exact absurd hnew (by simp)
  | schedule accepts raw range s s' calls _ hstep ih =>
    obtain ⟨ha, hb, hids, _⟩ := schedule_shape accepts raw s s' range calls hstep
    unfold scheduler.live at ih ⊢
    rw [ha, hb, length_of_ids _ _ hids]; exact ih
  | processor_starved accepts quantum pc s s' _ _ hstep ih =>
    obtain ⟨ha, hb, hids, _⟩ := processor_starved_shape accepts quantum s s' pc hstep
    unfold scheduler.live at ih ⊢
    rw [ha, hb, length_of_ids _ _ hids]; exact ih
  | processor_blocked accepts raw fresh pc queue s s' calls _ hstep ih =>
    obtain ⟨ha, hb, hids, _⟩ := schedule_shape accepts raw _ s' queue calls hstep
    obtain ⟨_, ha', _, _⟩ := processor_blocked_locked_fields fresh s
    have := processor_blocked_locked_populated fresh s ih.2
    unfold scheduler.live at this ⊢
    rw [ha, hb, length_of_ids _ _ hids]
    exact ⟨by rw [ha']; exact ih.1, this⟩
  | processor_unblocked pc s s' _ hstep ih =>
    unfold scheduler.processor_unblocked at hstep
    split at hstep
    · rename_i hpos
      simp only [Except.ok.injEq] at hstep
      obtain ⟨ha, hb, _, ⟨k, hk, htake, _, hmin⟩, _⟩ := remove_inactive_loop_spec
        s._processors.length { s with _blocked_processors := s._blocked_processors - 1 }
        (Nat.le_refl _)
      simp only [] at ha hb hk htake hmin
      unfold scheduler.remove_inactive_processors at hstep
      simp only [] at hstep
      unfold scheduler.live at ih ⊢
      rw [← hstep, ha, hb, htake, List.length_take]
      refine ⟨ih.1, ?_⟩
      have := ih.2
      omega
    · exact absurd hstep (by simp)
  | run s ps _ hids ih =>
    unfold scheduler.live at ih ⊢
    simp only []
    rw [length_of_ids _ _ hids]; exact ih

/-! ## No lookup past the end -/

theorem enqueue_through_in_range (accepts : processor → List Coroutine → Bool)
    (ps : List processor) (pc : Nat) (range : List Coroutine) :
    enqueue_through accepts ps pc range ≠ .error .out_of_range := by
  unfold enqueue_through
  split <;> simp

/-- With at least `_active_processors + _blocked_processors` processors, `schedule` looks up
no processor past the end of `_processors`. -/
theorem schedule_in_range (accepts : processor → List Coroutine → Bool) (raw : Nat)
    (s : scheduler) (range : List Coroutine) (hlive : s.live ≤ s._processors.length) :
    s.schedule accepts raw range ≠ .error .out_of_range := by
  unfold scheduler.schedule
  split
  · simp
  · split
    · rename_i starved _
      have := enqueue_through_in_range accepts s._processors starved range
      split
      · rename_i f hf
        intro hd
        simp only [Except.error.injEq] at hd
        rw [hd] at hf
        exact this hf
      · split <;> simp
    · by_cases hpos : 0 < s.live
      · rcases schedule_loop_spec accepts range s.live s._processors hlive s.live
            (s.random_index raw) [] (random_index_lt s raw hpos)
          with ⟨k, p, _, _, _, _, hres⟩ | ⟨_, hres⟩
        · unfold scheduler.live at hres
          simp [hres]
        · unfold scheduler.live at hres
          simp [hres]
      · have hzero : s._active_processors + s._blocked_processors = 0 := by
          unfold scheduler.live at hpos; omega
        simp [hzero, scheduler.schedule_loop]

/-- With a positive `_active_processors` and that many processors, `processor_starved` looks
up no processor past the end of `_processors`. -/
theorem processor_starved_in_range (accepts : processor → List Coroutine → Bool)
    (quantum : Nat → Nat) (s : scheduler) (pc : Nat)
    (hactive : 0 < s._active_processors)
    (hsize : s._active_processors ≤ s._processors.length) :
    s.processor_starved accepts quantum pc ≠ .error .out_of_range := by
  have hlt : most_busy_index s._processors 0 s._active_processors < s._processors.length :=
    Nat.lt_of_lt_of_le (most_busy_index_spec s._processors _ hactive).1 hsize
  have hv := List.getElem?_eq_getElem hlt
  unfold scheduler.processor_starved
  split
  · split
    · have := enqueue_through_in_range accepts s._processors pc s._global_queue
      split
      · rename_i f hf
        intro hd
        simp only [Except.error.injEq] at hd
        rw [hd] at hf
        exact this hf
      · simp
    · simp only [hv]
      split
      · have := enqueue_through_in_range accepts
          (s._processors.set (most_busy_index s._processors 0 s._active_processors)
            ((s._processors[most_busy_index s._processors 0 s._active_processors]).steal
              quantum).2) pc
          ((s._processors[most_busy_index s._processors 0 s._active_processors]).steal
            quantum).1
        split
        · rename_i f hf
          intro hd
          simp only [Except.error.injEq] at hd
          rw [hd] at hf
          exact this hf
        · simp
      · simp
  · simp

/-- With at least `_active_processors + _blocked_processors` processors, `processor_starved`
for a pointer that is the address of none of them returns the state as it was. -/
theorem processor_starved_foreign (accepts : processor → List Coroutine → Bool)
    (quantum : Nat → Nat) (s : scheduler) (pc : Nat)
    (hlive : s.live ≤ s._processors.length)
    (hpc : pc ∉ s._processors.map (fun p => p.id)) :
    s.processor_starved accepts quantum pc = .ok s := by
  have hidx : index_of s._processors pc = s._processors.length := by
    unfold index_of
    rw [List.findIdx_eq_length]
    intro x hx
    simp only [beq_eq_false_iff_ne, ne_eq]
    intro hid
    exact hpc (List.mem_map.mpr ⟨x, hx, hid⟩)
  unfold scheduler.live at hlive
  have hnot : ¬ index_of s._processors pc < s._active_processors + s._blocked_processors := by
    rw [hidx]; omega
  simp [scheduler.processor_starved, hnot]

/-- C11: in every state that a scheduler gets into from its construction by `schedule`,
`processor_starved`, `processor_blocked` and `processor_unblocked`, there are at least
`_active_processors + _blocked_processors` processors and that sum is at least 1.  So the
interval of `random_index` is not empty and its draw lies in it; every index that `schedule`
probes, every index of `[0, _active_processors)` and the index that `processor_starved`
steals from lie below the number of processors; and neither `schedule` nor
`processor_starved` looks up a processor past the end.  `processor_starved` may be called
with any pointer: its result is again such a state. -/
theorem reachable_lookups_in_range (s : scheduler) (h : reachable s) :
    1 ≤ s._active_processors ∧
    1 ≤ s._active_processors + s._blocked_processors ∧
    s._active_processors + s._blocked_processors ≤ s._processors.length ∧
    (∀ raw, s.random_index raw < s._active_processors + s._blocked_processors) ∧
    (∀ raw j, s.probe raw j < s._processors.length) ∧
    (∀ i, i < s._active_processors → i < s._processors.length) ∧
    most_busy_index s._processors 0 s._active_processors < s._processors.length ∧
    (∀ (accepts : processor → List Coroutine → Bool) (raw : Nat) (range : List Coroutine),
      s.schedule accepts raw range ≠ .error .out_of_range) ∧
    (∀ (accepts : processor → List Coroutine → Bool) (quantum : Nat → Nat) (pc : Nat),
      s.processor_starved accepts quantum pc ≠ .error .out_of_range) ∧
    (∀ (accepts : processor → List Coroutine → Bool) (quantum : Nat → Nat) (pc : Nat)
      (s' : scheduler), s.processor_starved accepts quantum pc = .ok s' → reachable s') := by
  obtain ⟨hactive, hlive⟩ := reachable_populated s h
  have hlive' : s._active_processors + s._blocked_processors ≤ s._processors.length := hlive
  have hpos : 0 < s.live := by unfold scheduler.live; omega
  refine ⟨hactive, by omega, hlive', fun raw => random_index_lt s raw hpos, ?_,
    fun i hi => by omega, ?_, fun accepts raw range => schedule_in_range accepts raw s range hlive,
    fun accepts quantum pc =>
      processor_starved_in_range accepts quantum s pc hactive (by omega), ?_⟩
  · intro raw j
    exact Nat.lt_of_lt_of_le (Nat.mod_lt _ hpos) hlive
  · exact Nat.lt_of_lt_of_le (most_busy_index_spec s._processors _ hactive).1 (by omega)
  · intro accepts quantum pc s' hstep
    by_cases hpc : pc ∈ s._processors.map (fun p => p.id)
    · exact reachable.processor_starved accepts quantum pc s s' h hpc hstep
    · rw [processor_starved_foreign accepts quantum s pc hlive hpc] at hstep
      simp only [Except.ok.injEq] at hstep
      rw [← hstep]; exact h

theorem reachable_lookups_in_range_witness :
    reachable surplus_processor ∧
    (
    1 ≤ surplus_processor._active_processors ∧
    1 ≤ surplus_processor._active_processors + surplus_processor._blocked_processors ∧
    surplus_processor._active_processors + surplus_processor._blocked_processors ≤ surplus_processor._processors.length ∧
    (∀ raw, surplus_processor.random_index raw < surplus_processor._active_processors + surplus_processor._blocked_processors) ∧
    (∀ raw j, surplus_processor.probe raw j < surplus_processor._processors.length) ∧
    (∀ i, i < surplus_processor._active_processors → i < surplus_processor._processors.length) ∧
    most_busy_index surplus_processor._processors 0 surplus_processor._active_processors < surplus_processor._processors.length ∧
    (∀ (accepts : processor → List Coroutine → Bool) (raw : Nat) (range : List Coroutine),
      surplus_processor.schedule accepts raw range ≠ .error .out_of_range) ∧
    (∀ (accepts : processor → List Coroutine → Bool) (quantum : Nat → Nat) (pc : Nat),
      surplus_processor.processor_starved accepts quantum pc ≠ .error .out_of_range) ∧
    (∀ (accepts : processor → List Coroutine → Bool) (quantum : Nat → Nat) (pc : Nat)
      (s' : scheduler), surplus_processor.processor_starved accepts quantum pc = .ok s' → reachable s')) :=
  ⟨surplus_processor_reachable,
    reachable_lookups_in_range surplus_processor surplus_processor_reachable⟩

end coroutines
